import Mathlib

/-!
Shallow embedding of the WaiterAI order-lifecycle engine
(`src/queries.py`, `src/tool_wrappers.py`, `src/anthropic_llm.py`,
`src/waiterai/database/models.py`) and proofs about it.

Conventions of the embedding:
* Python `datetime` values are modelled as `Nat` seconds; `timedelta(minutes=1)`
  is the constant `60`.
* SQLAlchemy rows are records; a table is a `List` of rows; `query(...).first()`
  is `List.find?`; an UPDATE on a row found by primary key is a `List.map` that
  rewrites the row with that key.
* Python `int` is `Int` (quantities may be negative, nothing clamps them).
* `DECIMAL` prices are modelled as `Int` (exact arithmetic; the scale factor is
  irrelevant to every statement proved here).
* A Python function that can `raise` returns `Except String` (the `.error`
  constructor is a raised exception, `.ok` a returned value).
* The free-text inference helper `_infer_removable_ingredients` is kept
  abstract: state-changing operations take it as an explicit function
  parameter `infer`, and every theorem quantifies over it, so each result
  holds for the actual regex-based implementation as a special case.
-/

namespace WaiterAI

/-- Single-quote character, used to build the exact message strings of the
Python source. -/
def sq : String := String.singleton (Char.ofNat 39)

/-- The `order_status` values that occur in `queries.py` (the five enum values
of `models.OrderItem` plus the two archival variants written by
`finalize_previous_orders`). -/
inductive OrderStatus where
  | pending
  | preparing
  | served
  | paid
  | cancelled
  | paidCompleted
  | cancelledCompleted
deriving DecidableEq, Repr

/-- The database string for each status, as written in `queries.py`. -/
def OrderStatus.toDb : OrderStatus → String
  | .pending => "pending"
  | .preparing => "preparing"
  | .served => "served"
  | .paid => "paid"
  | .cancelled => "cancelled"
  | .paidCompleted => "paid-completed"
  | .cancelledCompleted => "cancelled-completed"

/-- `models.Ingredient`: master row for a unique ingredient. -/
structure Ingredient where
  ingredient_id : Nat
  name : String
deriving DecidableEq, Repr

/-- `models.OfferingIngredient`: the association row linking an offering to an
ingredient, carrying the `is_removable` flag.  As in the source,
`ingredient_id` is the foreign-key column on the association itself (the
classifier reads `assoc.ingredient_id`) and `ingredient` the joined row. -/
structure OfferingIngredient where
  ingredient_id : Nat
  ingredient : Ingredient
  is_removable : Bool
deriving DecidableEq, Repr

/-- `models.Offering`: a menu item with price and integer stock, together with
its `ingredients` association list. -/
structure Offering where
  offering_id : Nat
  name : String
  price : Int
  quantity : Int
  ingredients : List OfferingIngredient
deriving DecidableEq, Repr

/-- `models.OrderItem`: one order line.  `sys_creation_date` and
`sys_update_date` are nullable timestamps, as the refresh code treats them. -/
structure OrderItem where
  order_item_id : Nat
  order_id : Nat
  offering_id : Nat
  quantity : Int
  special_instructions : Option String
  order_status : OrderStatus
  sys_creation_date : Option Nat
  sys_update_date : Option Nat
deriving DecidableEq, Repr

/-- `models.OrderItemModification`: records one excluded ingredient of one
order item. -/
structure OrderItemModification where
  order_item_id : Nat
  ingredient_id_to_remove : Nat
deriving DecidableEq, Repr

/-- `models.FAQ`: a key/value row. -/
structure FaqEntry where
  key : String
  value : String
deriving DecidableEq, Repr

/-- The relational state the operations of `queries.py` read and write.
`next_item_id` models the autoincrement counter of `order_items`. -/
structure DB where
  offerings : List Offering
  items : List OrderItem
  mods : List OrderItemModification
  faqs : List FaqEntry
  next_item_id : Nat
deriving Repr

/-! ## Ingredient-name normalization (`_normalize_ingredient_name`) -/

/-- The ASCII whitespace class of Python `str.strip` / regex `\s`. -/
def isPySpace (c : Char) : Bool :=
  c = ' ' ∨ c = '\t' ∨ c = '\n' ∨ c = '\r' ∨ c = Char.ofNat 11 ∨ c = Char.ofNat 12

/-- Python `value.strip()` on the character list. -/
def stripChars (l : List Char) : List Char :=
  ((l.dropWhile isPySpace).reverse.dropWhile isPySpace).reverse

/-- Python `value.strip()`. -/
def pyStrip (s : String) : String :=
  String.mk (stripChars s.data)

/-- Lower-case the string and collapse every run of whitespace to a single
space; the boolean tracks whether the previous character was whitespace
(`re.sub(r"\s+", " ", ·)` composed with `str.lower`). -/
def collapseLower : List Char → Bool → List Char
  | [], _ => []
  | c :: rest, prevSpace =>
    if isPySpace c then
      if prevSpace then collapseLower rest true
      else ' ' :: collapseLower rest true
    else c.toLower :: collapseLower rest false

/-- `queries._normalize_ingredient_name`: case- and whitespace-normalized
ingredient identifier. -/
def normalize_ingredient_name (value : String) : String :=
  String.mk (collapseLower (stripChars value.data) false)

/-! ## `_classify_removal_requests` -/

/-- The dict comprehension `{normalize(assoc.ingredient.name): assoc for assoc
in offering.ingredients}`: on duplicate normalized names the later entry wins,
so lookup scans the reversed list. -/
def ingredientLookup (assocs : List OfferingIngredient) (key : String) :
    Option OfferingIngredient :=
  assocs.reverse.find? (fun a => normalize_ingredient_name a.ingredient.name == key)

/-- The loop body of `_classify_removal_requests`, with the `seen_ingredient_ids`
set made explicit.  Returns `(removable_assocs, skipped_missing, skipped_locked)`. -/
def classifyAux (assocs : List OfferingIngredient) :
    List String → List Nat →
    List OfferingIngredient × List String × List String
  | [], _ => ([], [], [])
  | name :: rest, seen =>
    let cleaned := pyStrip name
    if cleaned = "" then classifyAux assocs rest seen
    else
      let normalized := normalize_ingredient_name cleaned
      if normalized = "" then classifyAux assocs rest seen
      else
        match ingredientLookup assocs normalized with
        | none =>
          let r := classifyAux assocs rest seen
          (r.1, cleaned :: r.2.1, r.2.2)
        | some assoc =>
          if !assoc.is_removable then
            let r := classifyAux assocs rest seen
            (r.1, r.2.1, assoc.ingredient.name :: r.2.2)
          else if assoc.ingredient_id ∈ seen then
            classifyAux assocs rest seen
          else
            let r := classifyAux assocs rest (assoc.ingredient_id :: seen)
            (assoc :: r.1, r.2.1, r.2.2)

/-- `queries._classify_removal_requests`: which requested removals are valid
for a given offering. -/
def classify_removal_requests (offering : Offering)
    (ingredients_to_exclude : List String) :
    List OfferingIngredient × List String × List String :=
  classifyAux offering.ingredients ingredients_to_exclude []

/-! ## Row lookups and updates -/

/-- `session.query(Offering).filter(Offering.name == item_name).first()`. -/
def findOfferingByName (db : DB) (item_name : String) : Option Offering :=
  db.offerings.find? (fun o => o.name == item_name)

/-- The `order_item.offering` relationship (foreign key `offering_id`). -/
def findOfferingById (db : DB) (oid : Nat) : Option Offering :=
  db.offerings.find? (fun o => o.offering_id == oid)

/-- `session.query(OrderItem).filter(OrderItem.order_item_id == id).first()`. -/
def findItem (db : DB) (iid : Nat) : Option OrderItem :=
  db.items.find? (fun it => it.order_item_id == iid)

/-- UPDATE of one offering row found by primary key. -/
def updateOffering (db : DB) (oid : Nat) (f : Offering → Offering) : DB :=
  { db with offerings := db.offerings.map fun o =>
      if o.offering_id == oid then f o else o }

/-- UPDATE of one order-item row found by primary key. -/
def updateItem (db : DB) (iid : Nat) (f : OrderItem → OrderItem) : DB :=
  { db with items := db.items.map fun it =>
      if it.order_item_id == iid then f it else it }

/-! ## `placeOrder` -/

/-- The `ValueError` message for an unknown offering name. -/
def offeringNotFoundMsg (item_name : String) : String :=
  "Offering " ++ sq ++ item_name ++ sq ++ " not found."

/-- The insufficient-stock message of `placeOrder`. -/
def insufficientStockMsg (quantity : Int) (offering : Offering) : String :=
  "Order cannot be placed as you requested " ++ toString quantity ++ " " ++
    offering.name ++ " but only " ++ toString offering.quantity ++ " in stock"

/-- The success message of `placeOrder` (`" ".join(message_parts)`). -/
def placeSuccessMsg (quantity : Int) (item_name : String) (new_id : Nat)
    (applied_removals skipped_missing skipped_locked : List String) : String :=
  String.intercalate " "
    ([ "Successfully placed order for " ++ toString quantity ++ " x " ++ sq ++
        item_name ++ sq ++ " (Order Item ID: " ++ toString new_id ++ ")." ] ++
      (if applied_removals ≠ [] then
        ["Noted removable ingredient exclusions: " ++
          String.intercalate ", " applied_removals] else []) ++
      (if skipped_missing ≠ [] then
        ["Skipped unknown ingredients: " ++
          String.intercalate ", " skipped_missing] else []) ++
      (if skipped_locked ≠ [] then
        ["Unable to remove protected ingredients: " ++
          String.intercalate ", " skipped_locked] else []))

/-- `queries.placeOrder`.  `infer` stands for
`_infer_removable_ingredients` (see the header note); `now` is the commit
timestamp the database server supplies for the new row's
`sys_creation_date`/`sys_update_date` defaults.  Returns the new state and
either the raised `ValueError` (`.error`) or the returned message (`.ok`). -/
def placeOrder (infer : Offering → Option String → List String) (db : DB)
    (order_id : Nat) (item_name : String) (quantity : Int)
    (special_instructions : Option String)
    (ingredients_to_exclude : List String) (now : Nat) :
    DB × Except String String :=
  match findOfferingByName db item_name with
  | none => (db, .error (offeringNotFoundMsg item_name))
  | some offering =>
    let excl :=
      if ingredients_to_exclude.isEmpty then
        infer offering special_instructions
      else ingredients_to_exclude
    if offering.quantity < quantity then
      (db, .ok (insufficientStockMsg quantity offering))
    else
      let new_item : OrderItem :=
        { order_item_id := db.next_item_id
          order_id := order_id
          offering_id := offering.offering_id
          quantity := quantity
          special_instructions := special_instructions
          order_status := .pending
          sys_creation_date := some now
          sys_update_date := some now }
      let cls := classify_removal_requests offering excl
      let applied := cls.1.map (fun a => a.ingredient.name)
      let new_mods := cls.1.map (fun a =>
        OrderItemModification.mk db.next_item_id a.ingredient_id)
      let db' : DB :=
        { offerings := db.offerings.map (fun o =>
            if o.offering_id == offering.offering_id then
              { o with quantity := o.quantity - quantity } else o)
          items := db.items ++ [new_item]
          mods := db.mods ++ new_mods
          faqs := db.faqs
          next_item_id := db.next_item_id + 1 }
      (db', .ok (placeSuccessMsg quantity item_name db.next_item_id
        applied cls.2.1 cls.2.2))

/-! ## `cancel_order_item` -/

/-- The `ValueError` message for an unknown order item. -/
def itemNotFoundMsg (order_item_id : Nat) : String :=
  "Order Item with ID " ++ toString order_item_id ++ " not found."

/-- The message returned when the item is not `pending`. -/
def cannotCancelMsg (status : OrderStatus) : String :=
  "Order item cannot be cancelled as its status is " ++ sq ++ status.toDb ++
    sq ++ "."

/-- The success message of `cancel_order_item`. -/
def cancelSuccessMsg (order_item_id : Nat) : String :=
  "Order Item ID " ++ toString order_item_id ++ " has been successfully cancelled."

/-- `queries.cancel_order_item`: restores stock and sets `cancelled` when the
item is `pending`, otherwise a message-only no-op.  `now` is the timestamp
the ORM `onupdate` hook stamps on the mutated row.  The dereference
`order_item.offering` raises an `AttributeError` on a dangling foreign key
(the transaction rolls back, leaving the state unchanged), modelled by the
`.error` branch. -/
def cancel_order_item (db : DB) (order_item_id : Nat) (now : Nat) :
    DB × Except String String :=
  match findItem db order_item_id with
  | none => (db, .error (itemNotFoundMsg order_item_id))
  | some order_item =>
    if order_item.order_status ≠ .pending then
      (db, .ok (cannotCancelMsg order_item.order_status))
    else
      match findOfferingById db order_item.offering_id with
      | none => (db, .error "AttributeError")
      | some _ =>
        let db1 := updateOffering db order_item.offering_id
          (fun o => { o with quantity := o.quantity + order_item.quantity })
        let db2 := updateItem db1 order_item.order_item_id
          (fun it => { it with order_status := .cancelled,
                               sys_update_date := some now })
        (db2, .ok (cancelSuccessMsg order_item_id))

/-! ## `update_order_item_quantity` -/

/-- The rejection message for a negative requested quantity. -/
def negativeQuantityMsg : String := "Quantity must be a non-negative number."

/-- The insufficient-stock message of the pending branch. -/
def cannotIncreaseMsg (available : Int) : String :=
  "Cannot increase quantity. Only " ++ toString available ++
    " additional items are in stock."

/-- The success message of the pending branch. -/
def quantityUpdatedMsg (order_item_id : Nat) (new_quantity : Int) : String :=
  "Successfully updated quantity for item " ++ toString order_item_id ++
    " to " ++ toString new_quantity ++ "."

/-- `queries.update_order_item_quantity`.  In the pending branch the
`order_item.offering` dereference assumes the foreign key resolves; on a
dangling key the Python would die with an `AttributeError`, modelled as
`.error`.  The non-pending branch first detaches the row
(`session.expunge(order_item)`, queries.py:479) and only then lazy-loads
`order_item.offering` (queries.py:485); the relationship was never loaded
while attached, so SQLAlchemy raises `DetachedInstanceError` every time this
branch runs — the delegation to `placeOrder` in the source text is dead
code, the transaction rolls back, and nothing is created. -/
def update_order_item_quantity
    (_infer : Offering → Option String → List String)
    (db : DB) (order_item_id : Nat) (new_quantity : Int) (now : Nat) :
    DB × Except String String :=
  if new_quantity < 0 then (db, .ok negativeQuantityMsg)
  else if new_quantity = 0 then cancel_order_item db order_item_id now
  else
    match findItem db order_item_id with
    | none => (db, .error (itemNotFoundMsg order_item_id))
    | some order_item =>
      if order_item.order_status = .pending then
        match findOfferingById db order_item.offering_id with
        | none => (db, .error "AttributeError")
        | some offering =>
          let quantity_difference := new_quantity - order_item.quantity
          if quantity_difference > 0 ∧ offering.quantity < quantity_difference then
            (db, .ok (cannotIncreaseMsg offering.quantity))
          else
            let db1 := updateOffering db offering.offering_id
              (fun o => { o with quantity := o.quantity - quantity_difference })
            let db2 := updateItem db1 order_item_id
              (fun it => { it with quantity := new_quantity,
                                   sys_update_date := some now })
            (db2, .ok (quantityUpdatedMsg order_item_id new_quantity))
      else
        (db, .error "DetachedInstanceError")

/-! ## `refresh_order_statuses` -/

/-- Whether the row is selected by the daemon's query: status in
`['pending', 'preparing']` and, when given, the matching `order_id`. -/
def refreshSelects (order_id : Option Nat) (it : OrderItem) : Bool :=
  (it.order_status == .pending || it.order_status == .preparing) &&
    (match order_id with
     | none => true
     | some oid => it.order_id == oid)

/-- The per-row body of `refresh_order_statuses`: the updated row and the
contribution to the `updated` counter.  `reference_time` is
`sys_update_date or sys_creation_date or now`; `elapsed >= timedelta(minutes=1)`
is `now - reference ≥ 60` in seconds (`Nat` subtraction truncates a
future reference to `0`, matching the negative-`timedelta` comparison). -/
def refreshStep (order_id : Option Nat) (now : Nat) (it : OrderItem) :
    OrderItem × Nat :=
  if refreshSelects order_id it then
    let reference := (it.sys_update_date.or it.sys_creation_date).getD now
    let elapsed := now - reference
    if it.order_status = .pending ∧ elapsed ≥ 60 then
      ({ it with order_status := .preparing, sys_update_date := some now }, 1)
    else if it.order_status = .preparing ∧ elapsed ≥ 60 then
      ({ it with order_status := .served, sys_update_date := some now }, 1)
    else (it, 0)
  else (it, 0)

/-- `queries.refresh_order_statuses`: advance order item statuses based on
elapsed time; returns the new state and the count of rows advanced. -/
def refresh_order_statuses (db : DB) (order_id : Option Nat) (now : Nat) :
    DB × Nat :=
  ({ db with items := db.items.map (fun it => (refreshStep order_id now it).1) },
    (db.items.map (fun it => (refreshStep order_id now it).2)).sum)

/-! ## `finalize_previous_orders` -/

/-- The per-row rewrite of the archival sweep. -/
def finalizeStep (now : Nat) (it : OrderItem) : OrderItem :=
  if it.order_status = .paid then
    { it with order_status := .paidCompleted, sys_update_date := some now }
  else if it.order_status = .cancelled then
    { it with order_status := .cancelledCompleted, sys_update_date := some now }
  else it

/-- `queries.finalize_previous_orders`: tag historical paid/cancelled items as
completed variants; returns the count of rewritten rows. -/
def finalize_previous_orders (db : DB) (now : Nat) : DB × Nat :=
  ({ db with items := db.items.map (finalizeStep now) },
    (db.items.filter (fun it =>
      it.order_status = .paid ∨ it.order_status = .cancelled)).length)

/-! ## `payment` -/

/-- Whether a `payment` call selects the row: matching `order_id` and, when a
non-empty `item_names` list is given, an (inner-join) offering whose name is
in the list.  Status is not consulted. -/
def paymentSelects (db : DB) (order_id : Nat) (item_names : List String)
    (it : OrderItem) : Bool :=
  it.order_id == order_id &&
    (item_names.isEmpty ||
      (match findOfferingById db it.offering_id with
       | none => false
       | some off => item_names.contains off.name))

/-- `queries.payment`: marks every selected non-`paid` item `paid`, whatever
its current status.  Returns the message of the source verbatim. -/
def payment (db : DB) (order_id : Nat) (item_names : List String) (now : Nat) :
    DB × Except String String :=
  let selected := db.items.filter (paymentSelects db order_id item_names)
  if selected.isEmpty then
    (db, .ok "No items found for the given criteria.")
  else
    let count := (selected.filter (fun it => it.order_status ≠ .paid)).length
    let db' : DB :=
      { db with items := db.items.map (fun it =>
          if paymentSelects db order_id item_names it && it.order_status != .paid then
            { it with order_status := .paid, sys_update_date := some now }
          else it) }
    if count > 0 then
      (db', .ok ("Payment successful. " ++ toString count ++
        " item(s) marked as paid."))
    else
      (db', .ok "All specified items were already paid.")

/-! ## `receipt` -/

/-- One itemized receipt row (`order_item_id`, name, unit price, quantity,
optional status). -/
structure ReceiptRow where
  order_item_id : Nat
  item_name : String
  item_value : Int
  quantity : Int
  status : Option OrderStatus
deriving DecidableEq, Repr

/-- The unit price `item.offering.price` (the foreign key is assumed to
resolve; `0` stands for the impossible dangling case). -/
def priceOf (db : DB) (it : OrderItem) : Int :=
  ((findOfferingById db it.offering_id).map (fun o => o.price)).getD 0

/-- The name `item.offering.name` under the same convention. -/
def offeringNameOf (db : DB) (it : OrderItem) : String :=
  ((findOfferingById db it.offering_id).map (fun o => o.name)).getD ""

/-- The WHERE clause of `receipt`'s query over the (already refreshed)
state: the order's items minus both cancelled variants, minus the paid
variants according to `include_paid`, and the optional name join. -/
def receiptSelects (db : DB) (order_id : Nat) (item_names : List String)
    (include_paid : Bool) (it : OrderItem) : Bool :=
  it.order_id == order_id &&
    !(it.order_status == .cancelled || it.order_status == .cancelledCompleted) &&
    (item_names.isEmpty ||
      (match findOfferingById db it.offering_id with
       | none => false
       | some off => item_names.contains off.name)) &&
    (if !include_paid then
      !(it.order_status == .paid || it.order_status == .paidCompleted)
     else it.order_status != .paidCompleted)

/-- `queries.receipt`: refreshes the order's statuses, then returns the
itemized rows and the total, which the source computes as
`sum(item.offering.price for item in order_items)` — unit prices, not
price times quantity.  The state is returned because the embedded refresh
mutates it. -/
def receipt (db : DB) (order_id : Nat) (item_names : List String)
    (include_paid : Bool) (include_status : Bool) (now : Nat) :
    DB × List ReceiptRow × Int :=
  let db' := (refresh_order_statuses db (some order_id) now).1
  let order_items := db'.items.filter
    (receiptSelects db' order_id item_names include_paid)
  let rows := order_items.map (fun it =>
    { order_item_id := it.order_item_id
      item_name := offeringNameOf db' it
      item_value := priceOf db' it
      quantity := it.quantity
      status := if include_status then some it.order_status else none
      : ReceiptRow })
  (db', rows, (order_items.map (priceOf db')).sum)

/-! ## FAQ lookup and the tool dispatch layer -/

/-- `queries.get_value_for_key`: the value of the first matching row, or
Python `None` when the key is absent — the function raises nothing. -/
def get_value_for_key (db : DB) (key_to_find : String) : Option String :=
  ((db.faqs.find? (fun f => f.key == key_to_find)).map (fun f => f.value))

/-- Python `str(result)` applied to a value that is a string or `None`. -/
def pyStrOfOption : Option String → String
  | some s => s
  | none => "None"

/-- `AnthropicLLM._execute_tool` specialised to the `get_faq_value` tool: the
wrapper call raises nothing, so the `try` body always returns
`str(result)`; the `except` branch that would prefix "Error executing" is
unreachable for this tool. -/
def execute_get_faq_value (db : DB) (key : String) : String :=
  pyStrOfOption (get_value_for_key db key)

/-- The input object of the `place_order` tool. -/
structure PlaceOrderParams where
  order_id : Nat
  item_name : String
  quantity : Option Int
  special_instructions : Option String
  ingredients_to_exclude : Option (List String)
deriving Repr

/-- `tool_wrappers.wrap_place_order`: `params.get('quantity', 1)` supplies the
default quantity `1` when the field is omitted. -/
def wrap_place_order (infer : Offering → Option String → List String)
    (db : DB) (p : PlaceOrderParams) (now : Nat) : DB × Except String String :=
  placeOrder infer db p.order_id p.item_name (p.quantity.getD 1)
    p.special_instructions (p.ingredients_to_exclude.getD []) now

/-! ## Derived state observations and well-formedness -/

/-- Stock (`Offering.quantity`) of the offering with the given id (`0` when no
such row exists). -/
def stockOf (db : DB) (oid : Nat) : Int :=
  ((findOfferingById db oid).map (fun o => o.quantity)).getD 0

/-- The contribution of one order item to the non-cancelled quantity total of
offering `oid`. -/
def activeContribution (oid : Nat) (it : OrderItem) : Int :=
  if it.offering_id = oid ∧ it.order_status ≠ .cancelled ∧
      it.order_status ≠ .cancelledCompleted then it.quantity else 0

/-- Sum of the quantities of the non-cancelled order items of offering `oid`. -/
def activeSum (db : DB) (oid : Nat) : Int :=
  (db.items.map (activeContribution oid)).sum

/-- The stock-conservation invariant of the specification (P1/I1/I4):
current stock plus the quantities of the non-cancelled items equals the
initial stock. -/
def StockInv (S0 : Int) (oid : Nat) (db : DB) : Prop :=
  stockOf db oid + activeSum db oid = S0

/-- Well-formedness of the relational state: primary keys are unique and the
autoincrement counter is ahead of every existing order item — exactly what
the database schema guarantees. -/
structure WF (db : DB) : Prop where
  off_nodup : (db.offerings.map (fun o => o.offering_id)).Nodup
  item_nodup : (db.items.map (fun it => it.order_item_id)).Nodup
  item_fresh : ∀ it ∈ db.items, it.order_item_id < db.next_item_id

/-- The state-changing operations of `queries.py`, as invoked by the tool
layer and the refresh daemon. -/
inductive Op where
  | place (order_id : Nat) (item_name : String) (quantity : Int)
      (special_instructions : Option String)
      (ingredients_to_exclude : List String) (now : Nat)
  | cancel (order_item_id : Nat) (now : Nat)
  | updateQty (order_item_id : Nat) (new_quantity : Int) (now : Nat)
  | refresh (order_id : Option Nat) (now : Nat)
  | pay (order_id : Nat) (item_names : List String) (now : Nat)
  | finalize (now : Nat)

/-- The state transformer of one operation (returned messages and counts
dropped). -/
def applyOp (infer : Offering → Option String → List String) (db : DB) :
    Op → DB
  | .place oid name q si excl now => (placeOrder infer db oid name q si excl now).1
  | .cancel iid now => (cancel_order_item db iid now).1
  | .updateQty iid q now => (update_order_item_quantity infer db iid q now).1
  | .refresh oid now => (refresh_order_statuses db oid now).1
  | .pay oid names now => (payment db oid names now).1
  | .finalize now => (finalize_previous_orders db now).1

/-- Left fold of a whole operation sequence. -/
def applyOps (infer : Offering → Option String → List String)
    (ops : List Op) (db : DB) : DB :=
  ops.foldl (applyOp infer) db

/-- The two ledger operations quantified over in claim C1, placements carrying
the claim's quantity bound. -/
def placeOrCancel : Op → Prop
  | .place _ _ q _ _ _ => 1 ≤ q
  | .cancel _ _ => True
  | _ => False

/-- The status edges along which a single operation may move an existing order
item: stay put, the two timed advances, cancellation of a pending item,
`payment`'s promotion of any non-`paid` status to `paid`, and the two
archival rewrites. -/
def allowedEdge (a b : OrderStatus) : Bool :=
  a == b ||
  (a == .pending && b == .preparing) ||
  (a == .preparing && b == .served) ||
  (a == .pending && b == .cancelled) ||
  (b == .paid && !(a == .paid)) ||
  (a == .paid && b == .paidCompleted) ||
  (a == .cancelled && b == .cancelledCompleted)

/-! ## Generic list lemmas -/

/-- `find?` keyed on data that `g` preserves commutes with `List.map g`. -/
theorem find?_map_comm {α : Type} (g : α → α) (p : α → Bool)
    (hg : ∀ a, p (g a) = p a) (l : List α) :
    (l.map g).find? p = (l.find? p).map g := by
  induction l with
  | nil => rfl
  | cons a l ih =>
    simp only [List.map_cons, List.find?, hg a]
    cases hpa : p a <;> simp [hpa, ih]

/-- In a list with `Nodup` keys, searching for the key of a member finds that
member. -/
theorem find?_key_of_mem {α : Type} (key : α → Nat) {l : List α}
    (hnodup : (l.map key).Nodup) {a : α} (ha : a ∈ l) :
    l.find? (fun x => key x == key a) = some a := by
  induction l with
  | nil => cases ha
  | cons b l ih =>
    simp only [List.map_cons, List.nodup_cons] at hnodup
    rcases List.mem_cons.mp ha with rfl | ha'
    · simp [List.find?]
    · have hne : key b ≠ key a := by
        intro h
        exact hnodup.1 (h ▸ List.mem_map_of_mem key ha')
      simp only [List.find?, beq_eq_false_iff_ne.mpr hne]
      exact ih hnodup.2 ha'

/-- Sums of pointwise differences. -/
theorem sum_map_sub {α : Type} (l : List α) (f g : α → Int) :
    (l.map fun x => f x - g x).sum = (l.map f).sum - (l.map g).sum := by
  induction l with
  | nil => simp
  | cons a l ih => simp only [List.map_cons, List.sum_cons, ih]; ring

/-- A map that vanishes on every element sums to zero. -/
theorem sum_map_zero {α : Type} (l : List α) (f : α → Int)
    (h : ∀ x ∈ l, f x = 0) : (l.map f).sum = 0 := by
  induction l with
  | nil => rfl
  | cons a l ih =>
    simp only [List.map_cons, List.sum_cons, h a (List.mem_cons_self a l),
      ih (fun x hx => h x (List.mem_cons_of_mem a hx)), add_zero]

/-- In a list with `Nodup` keys, a map that vanishes away from one member sums
to that member's value. -/
theorem sum_map_single {α : Type} (key : α → Nat) {l : List α}
    (hnodup : (l.map key).Nodup) (f : α → Int) {a : α} (ha : a ∈ l)
    (hz : ∀ x ∈ l, x ≠ a → f x = 0) : (l.map f).sum = f a := by
  induction l with
  | nil => cases ha
  | cons b l ih =>
    simp only [List.map_cons, List.nodup_cons] at hnodup
    rcases List.mem_cons.mp ha with rfl | ha'
    · have hrest : ∀ x ∈ l, f x = 0 := fun x hx =>
        hz x (List.mem_cons_of_mem _ hx)
          (by rintro rfl; exact hnodup.1 (List.mem_map_of_mem key hx))
      simp only [List.map_cons, List.sum_cons, sum_map_zero l f hrest, add_zero]
    · have hb : f b = 0 := hz b (List.mem_cons_self _ _)
        (by rintro rfl; exact hnodup.1 (List.mem_map_of_mem key ha'))
      simp only [List.map_cons, List.sum_cons, hb, zero_add]
      exact ih hnodup.2 ha'
        (fun x hx hne => hz x (List.mem_cons_of_mem _ hx) hne)

/-- Mapping with a key-preserving function leaves the key list unchanged. -/
theorem map_key_map {α β : Type} (g : α → α) (key : α → β) (l : List α)
    (hg : ∀ a, key (g a) = key a) : (l.map g).map key = l.map key := by
  rw [List.map_map]
  exact List.map_congr_left (fun a _ => hg a)

/-- Transfer of well-formedness along equal key lists. -/
theorem WF_of_same_keys {db db' : DB} (hWF : WF db)
    (hoff : db'.offerings.map (fun o => o.offering_id) =
      db.offerings.map (fun o => o.offering_id))
    (hitems : db'.items.map (fun it => it.order_item_id) =
      db.items.map (fun it => it.order_item_id))
    (hnext : db.next_item_id ≤ db'.next_item_id) : WF db' := by
  refine ⟨hoff ▸ hWF.off_nodup, hitems ▸ hWF.item_nodup, ?_⟩
  intro it hit
  have hmem : it.order_item_id ∈ db.items.map (fun x => x.order_item_id) := by
    rw [← hitems]
    exact List.mem_map_of_mem _ hit
  obtain ⟨it0, hit0, hk⟩ := List.mem_map.mp hmem
  rw [← hk]
  exact lt_of_lt_of_le (hWF.item_fresh it0 hit0) hnext

/-! ## Branch shapes of `placeOrder` and `cancel_order_item` -/

/-- `placeOrder` on an unknown offering name raises and changes nothing. -/
theorem placeOrder_notFound (infer : Offering → Option String → List String)
    (db : DB) (order_id : Nat) (item_name : String) (q : Int)
    (si : Option String) (excl : List String) (now : Nat)
    (hf : findOfferingByName db item_name = none) :
    placeOrder infer db order_id item_name q si excl now =
      (db, .error (offeringNotFoundMsg item_name)) := by
  simp [placeOrder, hf]

/-- `placeOrder` with insufficient stock returns the message and changes
nothing. -/
theorem placeOrder_insufficient (infer : Offering → Option String → List String)
    (db : DB) (order_id : Nat) (item_name : String) (q : Int)
    (si : Option String) (excl : List String) (now : Nat) (off : Offering)
    (hf : findOfferingByName db item_name = some off)
    (hq : off.quantity < q) :
    placeOrder infer db order_id item_name q si excl now =
      (db, .ok (insufficientStockMsg q off)) := by
  simp [placeOrder, hf, hq]

/-- Field-level description of a successful `placeOrder`. -/
theorem placeOrder_success (infer : Offering → Option String → List String)
    (db : DB) (order_id : Nat) (item_name : String) (q : Int)
    (si : Option String) (excl : List String) (now : Nat) (off : Offering)
    (hf : findOfferingByName db item_name = some off)
    (hq : ¬ off.quantity < q) :
    (placeOrder infer db order_id item_name q si excl now).1.offerings =
      db.offerings.map (fun o =>
        if o.offering_id == off.offering_id then
          { o with quantity := o.quantity - q } else o) ∧
    (placeOrder infer db order_id item_name q si excl now).1.items =
      db.items ++
        [⟨db.next_item_id, order_id, off.offering_id, q, si, .pending,
          some now, some now⟩] ∧
    (∃ ms, (placeOrder infer db order_id item_name q si excl now).1.mods =
        db.mods ++ ms ∧ ∀ m ∈ ms, m.order_item_id = db.next_item_id) ∧
    (placeOrder infer db order_id item_name q si excl now).1.faqs = db.faqs ∧
    (placeOrder infer db order_id item_name q si excl now).1.next_item_id =
      db.next_item_id + 1 ∧
    ∃ msg, (placeOrder infer db order_id item_name q si excl now).2 = .ok msg := by
  simp only [placeOrder, hf, hq, if_false]
  refine ⟨trivial, trivial, ⟨_, rfl, ?_⟩, trivial, trivial, ⟨_, rfl⟩⟩
  intro m hm
  obtain ⟨a, _, rfl⟩ := List.mem_map.mp hm
  rfl

/-- `cancel_order_item` on an unknown id raises and changes nothing. -/
theorem cancel_notFound (db : DB) (iid : Nat) (now : Nat)
    (hf : findItem db iid = none) :
    cancel_order_item db iid now = (db, .error (itemNotFoundMsg iid)) := by
  simp [cancel_order_item, hf]

/-- `cancel_order_item` on a non-`pending` item reports the status and changes
nothing. -/
theorem cancel_notPending (db : DB) (iid : Nat) (now : Nat) (it : OrderItem)
    (hf : findItem db iid = some it) (hs : it.order_status ≠ .pending) :
    cancel_order_item db iid now = (db, .ok (cannotCancelMsg it.order_status)) := by
  simp [cancel_order_item, hf, hs]

/-- `cancel_order_item` on a pending item with a dangling offering key raises
and changes nothing. -/
theorem cancel_dangling (db : DB) (iid : Nat) (now : Nat) (it : OrderItem)
    (hf : findItem db iid = some it) (hs : it.order_status = .pending)
    (ho : findOfferingById db it.offering_id = none) :
    cancel_order_item db iid now = (db, .error "AttributeError") := by
  simp [cancel_order_item, hf, hs, ho]

/-- Field-level description of a successful cancellation. -/
theorem cancel_success (db : DB) (iid : Nat) (now : Nat) (it : OrderItem)
    (o0 : Offering) (hf : findItem db iid = some it)
    (hs : it.order_status = .pending)
    (ho : findOfferingById db it.offering_id = some o0) :
    (cancel_order_item db iid now).1.offerings =
      db.offerings.map (fun o =>
        if o.offering_id == it.offering_id then
          { o with quantity := o.quantity + it.quantity } else o) ∧
    (cancel_order_item db iid now).1.items =
      db.items.map (fun x =>
        if x.order_item_id == it.order_item_id then
          { x with order_status := .cancelled, sys_update_date := some now }
        else x) ∧
    (cancel_order_item db iid now).1.mods = db.mods ∧
    (cancel_order_item db iid now).1.faqs = db.faqs ∧
    (cancel_order_item db iid now).1.next_item_id = db.next_item_id ∧
    (cancel_order_item db iid now).2 = .ok (cancelSuccessMsg iid) := by
  simp [cancel_order_item, hf, hs, ho, updateOffering, updateItem]

/-! ## Branch shapes of `update_order_item_quantity` -/

/-- Negative requested quantity: message-only rejection. -/
theorem updateQty_neg (infer : Offering → Option String → List String)
    (db : DB) (iid : Nat) (q : Int) (now : Nat) (hneg : q < 0) :
    update_order_item_quantity infer db iid q now = (db, .ok negativeQuantityMsg) := by
  simp [update_order_item_quantity, hneg]

/-- Requested quantity zero delegates to cancellation. -/
theorem updateQty_zero (infer : Offering → Option String → List String)
    (db : DB) (iid : Nat) (now : Nat) :
    update_order_item_quantity infer db iid 0 now = cancel_order_item db iid now := by
  simp [update_order_item_quantity]

/-- Unknown order item: raised `ValueError`, no change. -/
theorem updateQty_notFound (infer : Offering → Option String → List String)
    (db : DB) (iid : Nat) (q : Int) (now : Nat) (hneg : ¬ q < 0)
    (hzero : q ≠ 0) (hf : findItem db iid = none) :
    update_order_item_quantity infer db iid q now =
      (db, .error (itemNotFoundMsg iid)) := by
  simp [update_order_item_quantity, hneg, hzero, hf]

/-- Pending item with a dangling offering key: the `order_item.offering`
dereference raises. -/
theorem updateQty_dangling (infer : Offering → Option String → List String)
    (db : DB) (iid : Nat) (q : Int) (now : Nat) (it : OrderItem)
    (hneg : ¬ q < 0) (hzero : q ≠ 0) (hf : findItem db iid = some it)
    (hs : it.order_status = .pending)
    (ho : findOfferingById db it.offering_id = none) :
    update_order_item_quantity infer db iid q now = (db, .error "AttributeError") := by
  simp [update_order_item_quantity, hneg, hzero, hf, hs, ho]

/-- Pending item, stock too small for the increase: message-only rejection. -/
theorem updateQty_pending_insufficient
    (infer : Offering → Option String → List String) (db : DB) (iid : Nat)
    (q : Int) (now : Nat) (it : OrderItem) (off : Offering)
    (hneg : ¬ q < 0) (hzero : q ≠ 0) (hf : findItem db iid = some it)
    (ho : findOfferingById db it.offering_id = some off)
    (hs : it.order_status = .pending)
    (hstock : q - it.quantity > 0 ∧ off.quantity < q - it.quantity) :
    update_order_item_quantity infer db iid q now =
      (db, .ok (cannotIncreaseMsg off.quantity)) := by
  simp [update_order_item_quantity, hneg, hzero, hf, ho, hs, hstock]

/-- Pending item, acceptable quantity: stock adjusted by the difference, the
item's quantity rewritten. -/
theorem updateQty_pending_ok (infer : Offering → Option String → List String)
    (db : DB) (iid : Nat) (q : Int) (now : Nat) (it : OrderItem)
    (off : Offering) (hneg : ¬ q < 0) (hzero : q ≠ 0)
    (hf : findItem db iid = some it)
    (ho : findOfferingById db it.offering_id = some off)
    (hs : it.order_status = .pending)
    (hstock : ¬(q - it.quantity > 0 ∧ off.quantity < q - it.quantity)) :
    update_order_item_quantity infer db iid q now =
      ({ db with
          offerings := db.offerings.map (fun o =>
            if o.offering_id == off.offering_id then
              { o with quantity := o.quantity - (q - it.quantity) } else o)
          items := db.items.map (fun x =>
            if x.order_item_id == iid then
              { x with quantity := q, sys_update_date := some now } else x) },
        .ok (quantityUpdatedMsg iid q)) := by
  simp only [update_order_item_quantity, hneg, hzero, hf, ho, hs,
    updateOffering, updateItem, if_false, if_true, ite_false, ite_true,
    reduceIte]
  rw [if_neg hstock]

/-- Non-pending item: the expunge-then-lazy-load slip raises
`DetachedInstanceError` before anything can be created, and the transaction
rolls back. -/
theorem updateQty_nonpending (infer : Offering → Option String → List String)
    (db : DB) (iid : Nat) (q : Int) (now : Nat) (it : OrderItem)
    (hneg : ¬ q < 0) (hzero : q ≠ 0) (hf : findItem db iid = some it)
    (hs : it.order_status ≠ .pending) :
    update_order_item_quantity infer db iid q now =
      (db, .error "DetachedInstanceError") := by
  simp [update_order_item_quantity, hneg, hzero, hf, hs]

/-! ## Well-formedness preservation -/

/-- `placeOrder` preserves well-formedness. -/
theorem WF_placeOrder (infer : Offering → Option String → List String)
    (db : DB) (order_id : Nat) (item_name : String) (q : Int)
    (si : Option String) (excl : List String) (now : Nat) (hWF : WF db) :
    WF (placeOrder infer db order_id item_name q si excl now).1 := by
  cases hf : findOfferingByName db item_name with
  | none => rw [placeOrder_notFound infer db order_id item_name q si excl now hf]; exact hWF
  | some off =>
    by_cases hq : off.quantity < q
    · rw [placeOrder_insufficient infer db order_id item_name q si excl now off hf hq]
      exact hWF
    · obtain ⟨hoff, hitems, _, _, hnext, _⟩ :=
        placeOrder_success infer db order_id item_name q si excl now off hf hq
      refine ⟨?_, ?_, ?_⟩
      · rw [hoff, map_key_map]
        · exact hWF.off_nodup
        · intro o
          by_cases h : o.offering_id == off.offering_id <;> simp [h]
      · rw [hitems, List.map_append]
        rw [List.nodup_append]
        refine ⟨hWF.item_nodup, List.nodup_singleton _, ?_⟩
        intro k hk hk'
        obtain ⟨it0, hit0, rfl⟩ := List.mem_map.mp hk
        simp only [List.map_cons, List.map_nil, List.mem_singleton] at hk'
        exact absurd hk' (Nat.ne_of_lt (hWF.item_fresh it0 hit0))
      · intro it hit
        rw [hitems] at hit
        rw [hnext]
        rcases List.mem_append.mp hit with h | h
        · exact Nat.lt_succ_of_lt (hWF.item_fresh it h)
        · simp only [List.mem_singleton] at h
          rw [h]
          exact Nat.lt_succ_self _

/-- `cancel_order_item` preserves well-formedness. -/
theorem WF_cancel (db : DB) (iid : Nat) (now : Nat) (hWF : WF db) :
    WF (cancel_order_item db iid now).1 := by
  cases hf : findItem db iid with
  | none => rw [cancel_notFound db iid now hf]; exact hWF
  | some it =>
    by_cases hs : it.order_status = .pending
    · cases ho : findOfferingById db it.offering_id with
      | none => rw [cancel_dangling db iid now it hf hs ho]; exact hWF
      | some o0 =>
        obtain ⟨hoff, hitems, _, _, hnext, _⟩ := cancel_success db iid now it o0 hf hs ho
        refine WF_of_same_keys hWF ?_ ?_ (le_of_eq hnext.symm)
        · rw [hoff]
          apply map_key_map
          intro o
          by_cases h : o.offering_id == it.offering_id <;> simp [h]
        · rw [hitems]
          apply map_key_map
          intro x
          by_cases h : x.order_item_id == it.order_item_id <;> simp [h]
    · rw [cancel_notPending db iid now it hf hs]; exact hWF

/-- `update_order_item_quantity` preserves well-formedness. -/
theorem WF_updateQty (infer : Offering → Option String → List String)
    (db : DB) (iid : Nat) (q : Int) (now : Nat) (hWF : WF db) :
    WF (update_order_item_quantity infer db iid q now).1 := by
  by_cases hneg : q < 0
  · rw [updateQty_neg infer db iid q now hneg]; exact hWF
  · by_cases hzero : q = 0
    · rw [hzero, updateQty_zero infer db iid now]
      exact WF_cancel db iid now hWF
    · cases hf : findItem db iid with
      | none => rw [updateQty_notFound infer db iid q now hneg hzero hf]; exact hWF
      | some it =>
        by_cases hs : it.order_status = .pending
        · cases ho : findOfferingById db it.offering_id with
          | none =>
            rw [updateQty_dangling infer db iid q now it hneg hzero hf hs ho]
            exact hWF
          | some off =>
            by_cases hstock : q - it.quantity > 0 ∧ off.quantity < q - it.quantity
            · rw [updateQty_pending_insufficient infer db iid q now it off hneg
                hzero hf ho hs hstock]
              exact hWF
            · rw [updateQty_pending_ok infer db iid q now it off hneg hzero hf
                ho hs hstock]
              refine WF_of_same_keys hWF ?_ ?_ (le_refl _)
              · apply map_key_map
                intro o
                by_cases h : o.offering_id == off.offering_id <;> simp [h]
              · apply map_key_map
                intro x
                by_cases h : x.order_item_id == iid <;> simp [h]
        · rw [updateQty_nonpending infer db iid q now it hneg hzero hf hs]
          exact hWF

/-- `refresh_order_statuses` preserves well-formedness. -/
theorem WF_refresh (db : DB) (order_id : Option Nat) (now : Nat) (hWF : WF db) :
    WF (refresh_order_statuses db order_id now).1 := by
  refine WF_of_same_keys hWF rfl ?_ (le_refl _)
  apply map_key_map
  intro it
  simp only [refreshStep]
  split
  · split
    · rfl
    · split <;> rfl
  · rfl

/-- `payment` preserves well-formedness. -/
theorem WF_payment (db : DB) (order_id : Nat) (item_names : List String)
    (now : Nat) (hWF : WF db) :
    WF (payment db order_id item_names now).1 := by
  simp only [payment]
  split
  · exact hWF
  · split <;>
    · refine WF_of_same_keys hWF rfl ?_ (le_refl _)
      apply map_key_map
      intro it
      split <;> rfl

/-- `finalize_previous_orders` preserves well-formedness. -/
theorem WF_finalize (db : DB) (now : Nat) (hWF : WF db) :
    WF (finalize_previous_orders db now).1 := by
  refine WF_of_same_keys hWF rfl ?_ (le_refl _)
  apply map_key_map
  intro it
  simp only [finalizeStep]
  split
  · rfl
  · split <;> rfl

/-- Every operation preserves well-formedness. -/
theorem WF_applyOp (infer : Offering → Option String → List String)
    (db : DB) (op : Op) (hWF : WF db) : WF (applyOp infer db op) := by
  cases op with
  | place oid name q si excl now => exact WF_placeOrder infer db oid name q si excl now hWF
  | cancel iid now => exact WF_cancel db iid now hWF
  | updateQty iid q now => exact WF_updateQty infer db iid q now hWF
  | refresh oid now => exact WF_refresh db oid now hWF
  | pay oid names now => exact WF_payment db oid names now hWF
  | finalize now => exact WF_finalize db now hWF

/-- Well-formedness is preserved by whole operation sequences. -/
theorem WF_applyOps (infer : Offering → Option String → List String)
    (ops : List Op) (db : DB) (hWF : WF db) : WF (applyOps infer ops db) := by
  induction ops generalizing db with
  | nil => exact hWF
  | cons op ops ih => exact ih (applyOp infer db op) (WF_applyOp infer db op hWF)

/-! ## Stock conservation -/

/-- `Option.map` twice over on the stock lookup of a row-mapped offering
table. -/
theorem stockOf_map {db' db : DB} (g : Offering → Offering)
    (hg : ∀ o, (g o).offering_id = o.offering_id)
    (h : db'.offerings = db.offerings.map g) (oid : Nat) :
    stockOf db' oid =
      ((findOfferingById db oid).map (fun o => (g o).quantity)).getD 0 := by
  unfold stockOf findOfferingById
  rw [h, find?_map_comm g _ (fun o => by rw [hg o])]
  cases db.offerings.find? (fun o => o.offering_id == oid) <;> rfl

/-- Updating one keyed row changes a keyed sum by that row's delta. -/
theorem sum_map_map_update {α : Type} (key : α → Nat) {l : List α}
    (hnodup : (l.map key).Nodup) (g : α → α) (f : α → Int) {a : α}
    (ha : a ∈ l) (hother : ∀ x ∈ l, x ≠ a → g x = x) :
    ((l.map g).map f).sum = (l.map f).sum + (f (g a) - f a) := by
  rw [List.map_map, show l.map (f ∘ g) = l.map (fun x => f (g x)) from rfl]
  have h1 : (l.map (fun x => f (g x) - f x)).sum = f (g a) - f a :=
    sum_map_single key hnodup _ ha
      (fun x hx hne => by rw [hother x hx hne]; ring)
  have h2 := sum_map_sub l (fun x => f (g x)) f
  linarith

/-- `placeOrder` preserves the stock-conservation invariant. -/
theorem stockInv_placeOrder (S0 : Int) (oid : Nat)
    (infer : Offering → Option String → List String) (db : DB)
    (order_id : Nat) (item_name : String) (q : Int) (si : Option String)
    (excl : List String) (now : Nat) (hWF : WF db)
    (hInv : StockInv S0 oid db) :
    StockInv S0 oid (placeOrder infer db order_id item_name q si excl now).1 := by
  cases hf : findOfferingByName db item_name with
  | none =>
    rw [placeOrder_notFound infer db order_id item_name q si excl now hf]
    exact hInv
  | some off =>
    by_cases hq : off.quantity < q
    · rw [placeOrder_insufficient infer db order_id item_name q si excl now off hf hq]
      exact hInv
    · obtain ⟨hoff, hitems, _, _, _, _⟩ :=
        placeOrder_success infer db order_id item_name q si excl now off hf hq
      unfold StockInv at hInv ⊢
      have hstock := stockOf_map
        (fun o => if o.offering_id == off.offering_id then
          { o with quantity := o.quantity - q } else o)
        (fun o => by by_cases h : o.offering_id == off.offering_id <;> simp [h])
        hoff oid
      have hact :
          activeSum (placeOrder infer db order_id item_name q si excl now).1 oid =
            activeSum db oid +
              activeContribution oid
                ⟨db.next_item_id, order_id, off.offering_id, q, si, .pending,
                  some now, some now⟩ := by
        unfold activeSum
        rw [hitems, List.map_append, List.sum_append]
        simp
      rw [hstock, hact]
      by_cases hcase : oid = off.offering_id
      · subst hcase
        have hmem : off ∈ db.offerings := List.mem_of_find?_eq_some hf
        have hbyid : findOfferingById db off.offering_id = some off := by
          unfold findOfferingById
          exact find?_key_of_mem (fun o => o.offering_id) hWF.off_nodup hmem
        have hstockdb : stockOf db off.offering_id = off.quantity := by
          unfold stockOf
          rw [hbyid]
          rfl
        rw [hbyid]
        show (if (off.offering_id == off.offering_id) = true then
            { off with quantity := off.quantity - q } else off).quantity + _ = S0
        rw [if_pos (by simp)]
        show off.quantity - q +
          (activeSum db off.offering_id +
            activeContribution off.offering_id
              ⟨db.next_item_id, order_id, off.offering_id, q, si, .pending,
                some now, some now⟩) = S0
        unfold activeContribution
        rw [if_pos (by simp)]
        rw [← hInv, hstockdb]
        ring
      · cases hdb : findOfferingById db oid with
        | none =>
          unfold stockOf at hInv
          rw [hdb] at hInv
          unfold activeContribution
          rw [if_neg (fun h => hcase h.1.symm)]
          simpa using hInv
        | some o1 =>
          have ho1 : o1.offering_id = oid := by
            have h2 := List.find?_some hdb
            exact eq_of_beq h2
          unfold stockOf at hInv
          rw [hdb] at hInv
          show (if (o1.offering_id == off.offering_id) = true then
              { o1 with quantity := o1.quantity - q } else o1).quantity + _ = S0
          rw [if_neg (fun h => hcase (ho1 ▸ eq_of_beq h))]
          unfold activeContribution
          rw [if_neg (fun h => hcase h.1.symm)]
          simpa using hInv

/-- `cancel_order_item` preserves the stock-conservation invariant. -/
theorem stockInv_cancel (S0 : Int) (oid : Nat) (db : DB) (iid : Nat)
    (now : Nat) (hWF : WF db) (hInv : StockInv S0 oid db) :
    StockInv S0 oid (cancel_order_item db iid now).1 := by
  cases hf : findItem db iid with
  | none => rw [cancel_notFound db iid now hf]; exact hInv
  | some it =>
    by_cases hs : it.order_status = .pending
    · cases ho : findOfferingById db it.offering_id with
      | none => rw [cancel_dangling db iid now it hf hs ho]; exact hInv
      | some o0 =>
        obtain ⟨hoff, hitems, _, _, _, _⟩ := cancel_success db iid now it o0 hf hs ho
        have hit_mem : it ∈ db.items := List.mem_of_find?_eq_some hf
        unfold StockInv at hInv ⊢
        have hstock := stockOf_map
          (fun o => if o.offering_id == it.offering_id then
            { o with quantity := o.quantity + it.quantity } else o)
          (fun o => by by_cases h : o.offering_id == it.offering_id <;> simp [h])
          hoff oid
        have hother : ∀ x ∈ db.items, x ≠ it →
            (fun x => if x.order_item_id == it.order_item_id then
              { x with order_status := OrderStatus.cancelled,
                       sys_update_date := some now } else x) x = x := by
          intro x hx hne
          have hneq : (x.order_item_id == it.order_item_id) = false := by
            refine beq_eq_false_iff_ne.mpr ?_
            intro hk
            exact hne (List.inj_on_of_nodup_map hWF.item_nodup hx hit_mem hk)
          simp only [hneq, if_false, Bool.false_eq_true]
        have hact :
            activeSum (cancel_order_item db iid now).1 oid =
              activeSum db oid +
                (activeContribution oid
                  (if (it.order_item_id == it.order_item_id) = true then
                    { it with order_status := OrderStatus.cancelled,
                              sys_update_date := some now } else it) -
                 activeContribution oid it) := by
          unfold activeSum
          rw [hitems]
          exact sum_map_map_update (fun x => x.order_item_id) hWF.item_nodup
            _ _ hit_mem hother
        have hdelta :
            activeContribution oid
                (if (it.order_item_id == it.order_item_id) = true then
                  { it with order_status := OrderStatus.cancelled,
                            sys_update_date := some now } else it) -
              activeContribution oid it =
              if it.offering_id = oid then -it.quantity else 0 := by
          rw [if_pos (by simp)]
          unfold activeContribution
          by_cases hoid : it.offering_id = oid <;> simp [hoid, hs]
        rw [hstock, hact, hdelta]
        by_cases hcase : oid = it.offering_id
        · subst hcase
          unfold stockOf at hInv
          rw [ho] at hInv
          rw [ho]
          have ho0 : o0.offering_id = it.offering_id := by
            have h2 := List.find?_some ho
            exact eq_of_beq h2
          show (if (o0.offering_id == it.offering_id) = true then
              { o0 with quantity := o0.quantity + it.quantity } else o0).quantity
              + _ = S0
          rw [if_pos (by simp [ho0])]
          rw [if_pos rfl]
          simp only [Option.map_some', Option.getD_some] at hInv
          show o0.quantity + it.quantity +
            (activeSum db it.offering_id + -it.quantity) = S0
          rw [← hInv]
          ring
        · cases hdb : findOfferingById db oid with
          | none =>
            unfold stockOf at hInv
            rw [hdb] at hInv
            rw [if_neg (fun h => hcase h.symm)]
            simpa using hInv
          | some o1 =>
            have ho1 : o1.offering_id = oid := by
              have h2 := List.find?_some hdb
              exact eq_of_beq h2
            unfold stockOf at hInv
            rw [hdb] at hInv
            show (if (o1.offering_id == it.offering_id) = true then
                { o1 with quantity := o1.quantity + it.quantity } else o1).quantity
                + _ = S0
            rw [if_neg (fun h => hcase (ho1 ▸ eq_of_beq h))]
            rw [if_neg (fun h => hcase h.symm)]
            simpa using hInv
    · rw [cancel_notPending db iid now it hf hs]; exact hInv

/-! ## Status transitions of single operations -/

/-- Staying put is always an allowed edge. -/
theorem allowedEdge_refl (a : OrderStatus) : allowedEdge a a = true := by
  cases a <;> rfl

/-- The status of an item is preserved or moved along one allowed edge by
`cancel_order_item`. -/
theorem status_step_cancel (db : DB) (iid : Nat) (now : Nat) (hWF : WF db) :
    ∀ x ∈ db.items, ∃ x', x' ∈ (cancel_order_item db iid now).1.items ∧
      x'.order_item_id = x.order_item_id ∧
      allowedEdge x.order_status x'.order_status = true := by
  intro x hx
  cases hf : findItem db iid with
  | none =>
    rw [cancel_notFound db iid now hf]
    exact ⟨x, hx, rfl, allowedEdge_refl _⟩
  | some it0 =>
    by_cases hs : it0.order_status = .pending
    · cases ho : findOfferingById db it0.offering_id with
      | none =>
        rw [cancel_dangling db iid now it0 hf hs ho]
        exact ⟨x, hx, rfl, allowedEdge_refl _⟩
      | some o0 =>
        obtain ⟨_, hitems, _, _, _, _⟩ := cancel_success db iid now it0 o0 hf hs ho
        rw [hitems]
        refine ⟨_, List.mem_map_of_mem _ hx, ?_, ?_⟩
        · by_cases h : (x.order_item_id == it0.order_item_id) = true <;> simp [h]
        · by_cases h : (x.order_item_id == it0.order_item_id) = true
          · have hx0 : x = it0 :=
              List.inj_on_of_nodup_map hWF.item_nodup hx
                (List.mem_of_find?_eq_some hf) (eq_of_beq h)
            simp only [h, if_true]
            rw [hx0, hs]
            rfl
          · simp only [h, if_false, Bool.false_eq_true]
            exact allowedEdge_refl _
    · rw [cancel_notPending db iid now it0 hf hs]
      exact ⟨x, hx, rfl, allowedEdge_refl _⟩

/-- The status of an existing item is untouched by `placeOrder` (the new item
is appended). -/
theorem status_step_place (infer : Offering → Option String → List String)
    (db : DB) (order_id : Nat) (item_name : String) (q : Int)
    (si : Option String) (excl : List String) (now : Nat) :
    ∀ x ∈ db.items, ∃ x',
      x' ∈ (placeOrder infer db order_id item_name q si excl now).1.items ∧
      x'.order_item_id = x.order_item_id ∧
      allowedEdge x.order_status x'.order_status = true := by
  intro x hx
  cases hf : findOfferingByName db item_name with
  | none =>
    rw [placeOrder_notFound infer db order_id item_name q si excl now hf]
    exact ⟨x, hx, rfl, allowedEdge_refl _⟩
  | some off =>
    by_cases hq : off.quantity < q
    · rw [placeOrder_insufficient infer db order_id item_name q si excl now off hf hq]
      exact ⟨x, hx, rfl, allowedEdge_refl _⟩
    · obtain ⟨_, hitems, _, _, _, _⟩ :=
        placeOrder_success infer db order_id item_name q si excl now off hf hq
      rw [hitems]
      exact ⟨x, List.mem_append_left _ hx, rfl, allowedEdge_refl _⟩

/-- The resulting state of `payment` in one expression. -/
theorem payment_state (db : DB) (oid : Nat) (names : List String) (now : Nat) :
    (payment db oid names now).1 =
      if (db.items.filter (paymentSelects db oid names)).isEmpty then db
      else { db with items := db.items.map (fun it =>
        if paymentSelects db oid names it && it.order_status != .paid then
          { it with order_status := .paid, sys_update_date := some now }
        else it) } := by
  by_cases hsel : (db.items.filter (paymentSelects db oid names)).isEmpty
  · simp [payment, hsel]
  · simp only [payment, hsel, if_false, Bool.false_eq_true]
    split <;> rfl

/-- The status of an item is preserved or moved along one allowed edge by any
operation. -/
theorem status_step (infer : Offering → Option String → List String)
    (db : DB) (op : Op) (hWF : WF db) :
    ∀ x ∈ db.items, ∃ x', x' ∈ (applyOp infer db op).items ∧
      x'.order_item_id = x.order_item_id ∧
      allowedEdge x.order_status x'.order_status = true := by
  cases op with
  | place oid name q si excl now =>
    exact status_step_place infer db oid name q si excl now
  | cancel iid now => exact status_step_cancel db iid now hWF
  | updateQty iid q now =>
    intro x hx
    show ∃ x', x' ∈ (update_order_item_quantity infer db iid q now).1.items ∧ _
    by_cases hneg : q < 0
    · rw [updateQty_neg infer db iid q now hneg]
      exact ⟨x, hx, rfl, allowedEdge_refl _⟩
    · by_cases hzero : q = 0
      · rw [hzero, updateQty_zero infer db iid now]
        exact status_step_cancel db iid now hWF x hx
      · cases hf : findItem db iid with
        | none =>
          rw [updateQty_notFound infer db iid q now hneg hzero hf]
          exact ⟨x, hx, rfl, allowedEdge_refl _⟩
        | some it0 =>
          by_cases hs : it0.order_status = .pending
          · cases ho : findOfferingById db it0.offering_id with
            | none =>
              rw [updateQty_dangling infer db iid q now it0 hneg hzero hf hs ho]
              exact ⟨x, hx, rfl, allowedEdge_refl _⟩
            | some off =>
              by_cases hstock : q - it0.quantity > 0 ∧ off.quantity < q - it0.quantity
              · rw [updateQty_pending_insufficient infer db iid q now it0 off
                  hneg hzero hf ho hs hstock]
                exact ⟨x, hx, rfl, allowedEdge_refl _⟩
              · rw [updateQty_pending_ok infer db iid q now it0 off hneg hzero
                  hf ho hs hstock]
                refine ⟨_, List.mem_map_of_mem _ hx, ?_, ?_⟩
                · by_cases h : (x.order_item_id == iid) = true <;> simp [h]
                · by_cases h : (x.order_item_id == iid) = true <;> simp only [h,
                    if_true, if_false, Bool.false_eq_true]
                  · exact allowedEdge_refl _
                  · exact allowedEdge_refl _
          · rw [updateQty_nonpending infer db iid q now it0 hneg hzero hf hs]
            exact ⟨x, hx, rfl, allowedEdge_refl _⟩
  | refresh oid now =>
    intro x hx
    refine ⟨(refreshStep oid now x).1,
      List.mem_map_of_mem (fun y => (refreshStep oid now y).1) hx, ?_, ?_⟩
    · simp only [refreshStep]
      split
      · split
        · rfl
        · split <;> rfl
      · rfl
    · simp only [refreshStep]
      split
      · split
        · rename_i hcond
          rw [hcond.1]
          rfl
        · split
          · rename_i hcond
            rw [hcond.1]
            rfl
          · exact allowedEdge_refl _
      · exact allowedEdge_refl _
  | pay oid names now =>
    intro x hx
    rw [show applyOp infer db (Op.pay oid names now) = (payment db oid names now).1
      from rfl, payment_state db oid names now]
    split
    · exact ⟨x, hx, rfl, allowedEdge_refl _⟩
    · refine ⟨_, List.mem_map_of_mem _ hx, ?_, ?_⟩
      · split <;> rfl
      · split
        · rename_i hcond
          have hne : (x.order_status != OrderStatus.paid) = true :=
            (Bool.and_eq_true _ _ |>.mp hcond).2
          cases hst : x.order_status <;> rfl
        · exact allowedEdge_refl _
  | finalize now =>
    intro x hx
    refine ⟨finalizeStep now x, List.mem_map_of_mem _ hx, ?_, ?_⟩
    · simp only [finalizeStep]
      split
      · rfl
      · split <;> rfl
    · simp only [finalizeStep]
      split
      · rename_i hcond
        rw [hcond]
        rfl
      · split
        · rename_i hcond
          rw [hcond]
          rfl
        · exact allowedEdge_refl _

/-- Across a whole operation sequence, each initial item has a (unique)
successor reachable along allowed edges. -/
theorem status_reach (infer : Offering → Option String → List String)
    (ops : List Op) (db0 : DB) (hWF : WF db0) :
    ∀ x ∈ db0.items, ∃ x', x' ∈ (applyOps infer ops db0).items ∧
      x'.order_item_id = x.order_item_id ∧
      Relation.ReflTransGen (fun a b => allowedEdge a b = true)
        x.order_status x'.order_status := by
  induction ops generalizing db0 with
  | nil => exact fun x hx => ⟨x, hx, rfl, Relation.ReflTransGen.refl⟩
  | cons op ops ih =>
    intro x hx
    obtain ⟨x1, hx1, hid1, hedge⟩ := status_step infer db0 op hWF x hx
    obtain ⟨x2, hx2, hid2, hstar⟩ :=
      ih (applyOp infer db0 op) (WF_applyOp infer db0 op hWF) x1 hx1
    exact ⟨x2, hx2, hid2.trans hid1,
      Relation.ReflTransGen.head hedge hstar⟩

/-- No allowed edge enters `pending`. -/
theorem edge_into_pending (a : OrderStatus)
    (h : allowedEdge a .pending = true) : a = .pending := by
  cases a <;> revert h <;> decide

/-- No allowed path enters `pending` from elsewhere. -/
theorem star_into_pending {a b : OrderStatus}
    (h : Relation.ReflTransGen (fun x y => allowedEdge x y = true) a b) :
    b = .pending → a = .pending := by
  induction h with
  | refl => exact fun h => h
  | tail _ hedge ih =>
    intro hc
    subst hc
    exact ih (edge_into_pending _ hedge)

/-! ## Claim C1 -/

/-- **C1** (stock conservation).  For any sequence of `placeOrder` /
`cancel_order_item` operations (placements with quantity ≥ 1) on a
well-formed state satisfying `current_stock + Σ(quantity of non-cancelled
items) = S0` for an offering, the invariant holds again after every prefix of
the sequence — i.e. at every point of the run.  Placement decrements stock by
the item's quantity exactly once, cancellation from `pending` re-increments it
exactly once, and the invariant is never disturbed in between. -/
theorem C1_stock_conservation (infer : Offering → Option String → List String)
    (ops : List Op) (db0 : DB) (S0 : Int) (oid : Nat)
    (hops : ∀ op ∈ ops, placeOrCancel op) (hWF : WF db0)
    (hInv : StockInv S0 oid db0) :
    ∀ pre suf, ops = pre ++ suf → StockInv S0 oid (applyOps infer pre db0) := by
  have haux : ∀ (l : List Op) (db : DB), (∀ op ∈ l, placeOrCancel op) →
      WF db → StockInv S0 oid db → StockInv S0 oid (applyOps infer l db) := by
    intro l
    induction l with
    | nil => exact fun db _ _ hInv => hInv
    | cons op l ihl =>
      intro db hl hWF hInv
      have hop := hl op (List.mem_cons_self op l)
      have hrest : ∀ o ∈ l, placeOrCancel o :=
        fun o ho => hl o (List.mem_cons_of_mem op ho)
      have hWF' := WF_applyOp infer db op hWF
      have hInv' : StockInv S0 oid (applyOp infer db op) := by
        cases op with
        | place o n q si excl now =>
          exact stockInv_placeOrder S0 oid infer db o n q si excl now hWF hInv
        | cancel iid now => exact stockInv_cancel S0 oid db iid now hWF hInv
        | updateQty iid q now => exact absurd hop (by simp [placeOrCancel])
        | refresh o now => exact absurd hop (by simp [placeOrCancel])
        | pay o names now => exact absurd hop (by simp [placeOrCancel])
        | finalize now => exact absurd hop (by simp [placeOrCancel])
      exact ihl (applyOp infer db op) hrest hWF' hInv'
  intro pre suf heq
  exact haux pre db0
    (fun op hop => hops op (heq ▸ List.mem_append_left suf hop)) hWF hInv

/-- Concrete run for the hypotheses of `C1_stock_conservation`. -/
def C1db : DB :=
  ⟨[⟨1, "Margherita", 900, 5, []⟩], [], [], [], 1⟩

/-- Witness: a place-then-cancel run on stock 5 keeps the invariant at the
intermediate and final points. -/
theorem C1_stock_conservation_witness :
    StockInv 5 1 (applyOps (fun _ _ => [])
      [Op.place 1 "Margherita" 3 none [] 0] C1db) :=
  C1_stock_conservation (fun _ _ => [])
    [Op.place 1 "Margherita" 3 none [] 0, Op.cancel 1 60] C1db 5 1
    (by
      intro op hop
      simp only [List.mem_cons, List.not_mem_nil, or_false] at hop
      rcases hop with rfl | rfl
      · show (1 : Int) ≤ 3
        decide
      · trivial)
    ⟨by decide, by decide, by decide⟩
    (by show stockOf C1db 1 + activeSum C1db 1 = 5; decide)
    [Op.place 1 "Margherita" 3 none [] 0] [Op.cancel 1 60] rfl

/-! ## Claim C2 -/

/-- State with one already-cancelled order item for order 7. -/
def C2db : DB :=
  ⟨[⟨1, "Cola", 300, 5, []⟩],
   [⟨1, 7, 1, 1, none, .cancelled, some 0, some 0⟩], [], [], 2⟩

/-- **C2 counterexample.**  `payment` selects items regardless of status and
sets every non-`paid` one to `paid`: on a `cancelled` item it produces the
transition `cancelled → paid`, so the claimed edge set (under which no
operation moves a cancelled item to a non-cancelled status) is violated by
the code. -/
theorem C2_counterexample :
    (findItem C2db 1).map (fun it => it.order_status) = some .cancelled ∧
    (findItem (payment C2db 7 [] 5).1 1).map (fun it => it.order_status) =
      some .paid := by
  constructor <;> rfl

/-- **C2 (amended)**: across every operation sequence, each order item's
status only moves along the edges `pending→preparing→served`,
`pending→cancelled`, `paid→paid-completed`, `cancelled→cancelled-completed`,
plus `payment`'s edge `s→paid` for every `s ≠ paid` (the code promotes even
cancelled and archived items); in particular no item ever re-enters
`pending` once advanced. -/
theorem C2_status_monotonic (infer : Offering → Option String → List String)
    (ops : List Op) (db0 : DB) (hWF : WF db0) :
    ∀ x ∈ db0.items, ∀ x' ∈ (applyOps infer ops db0).items,
      x'.order_item_id = x.order_item_id →
      Relation.ReflTransGen (fun a b => allowedEdge a b = true)
        x.order_status x'.order_status ∧
      (x'.order_status = .pending → x.order_status = .pending) := by
  intro x hx x' hx' hid
  obtain ⟨xf, hmemf, hidf, hstar⟩ := status_reach infer ops db0 hWF x hx
  have hWFf := WF_applyOps infer ops db0 hWF
  have hx'f : x' = xf :=
    List.inj_on_of_nodup_map hWFf.item_nodup hx' hmemf (by rw [hid, hidf])
  subst hx'f
  exact ⟨hstar, star_into_pending hstar⟩

/-- State with one fresh pending order item. -/
def C2Wdb : DB :=
  ⟨[⟨1, "Cola", 300, 5, []⟩],
   [⟨1, 1, 1, 1, none, .pending, some 0, some 0⟩], [], [], 2⟩

/-- Witness: a stale pending item advanced once by the refresh daemon moved
along an allowed path and did not re-enter `pending`. -/
theorem C2_status_monotonic_witness :
    Relation.ReflTransGen (fun a b => allowedEdge a b = true)
      OrderStatus.pending OrderStatus.preparing ∧
    (OrderStatus.preparing = OrderStatus.pending →
      OrderStatus.pending = OrderStatus.pending) :=
  C2_status_monotonic (fun _ _ => []) [Op.refresh none 100] C2Wdb
    ⟨by decide, by decide, by decide⟩
    ⟨1, 1, 1, 1, none, .pending, some 0, some 0⟩ (by decide)
    ⟨1, 1, 1, 1, none, .preparing, some 0, some 100⟩ (by decide) rfl

/-! ## Claim C5 -/

/-- The optional `order_id` restriction of the daemon's query. -/
def orderMatches (order_id : Option Nat) (it : OrderItem) : Bool :=
  match order_id with
  | none => true
  | some oid => it.order_id == oid

/-- What claim C5 says one daemon invocation does to one item: at most one
forward step (`pending→preparing` or `preparing→served`), each only when the
elapsed time since the last update (or creation) is at least one minute
(60 s), stamping the update time; items in any other status are untouched,
nothing moves backward, and a selected stale item does advance. -/
def refreshItemSpec (order_id : Option Nat) (now : Nat)
    (pre post : OrderItem) : Prop :=
  (post = pre ∨
    (orderMatches order_id pre = true ∧
      now - ((pre.sys_update_date.or pre.sys_creation_date).getD now) ≥ 60 ∧
      ((pre.order_status = .pending ∧
          post = { pre with order_status := .preparing,
                            sys_update_date := some now }) ∨
       (pre.order_status = .preparing ∧
          post = { pre with order_status := .served,
                            sys_update_date := some now })))) ∧
  (pre.order_status ≠ .pending ∧ pre.order_status ≠ .preparing → post = pre) ∧
  (pre.order_status = .pending → orderMatches order_id pre = true →
    now - ((pre.sys_update_date.or pre.sys_creation_date).getD now) ≥ 60 →
    post = { pre with order_status := .preparing,
                      sys_update_date := some now }) ∧
  (pre.order_status = .preparing → orderMatches order_id pre = true →
    now - ((pre.sys_update_date.or pre.sys_creation_date).getD now) ≥ 60 →
    post = { pre with order_status := .served, sys_update_date := some now })

/-- The per-row body of the daemon satisfies the claim-side spec. -/
theorem refreshStep_spec (order_id : Option Nat) (now : Nat) (it : OrderItem) :
    refreshItemSpec order_id now it (refreshStep order_id now it).1 := by
  unfold refreshStep
  by_cases hsel : refreshSelects order_id it = true
  · rw [if_pos hsel]
    dsimp only
    have hmatch : orderMatches order_id it = true := by
      unfold refreshSelects at hsel
      exact ((Bool.and_eq_true _ _).mp hsel).2
    by_cases h1 : it.order_status = .pending ∧
        now - ((it.sys_update_date.or it.sys_creation_date).getD now) ≥ 60
    · rw [if_pos h1]
      refine ⟨Or.inr ⟨hmatch, h1.2, Or.inl ⟨h1.1, rfl⟩⟩, ?_, ?_, ?_⟩
      · intro hother
        exact absurd h1.1 hother.1
      · intro _ _ _
        rfl
      · intro hprep _ _
        rw [h1.1] at hprep
        exact absurd hprep (by decide)
    · rw [if_neg h1]
      by_cases h2 : it.order_status = .preparing ∧
          now - ((it.sys_update_date.or it.sys_creation_date).getD now) ≥ 60
      · rw [if_pos h2]
        refine ⟨Or.inr ⟨hmatch, h2.2, Or.inr ⟨h2.1, rfl⟩⟩, ?_, ?_, ?_⟩
        · intro hother
          exact absurd h2.1 hother.2
        · intro hp _ he
          exact absurd ⟨hp, he⟩ h1
        · intro _ _ _
          rfl
      · rw [if_neg h2]
        refine ⟨Or.inl rfl, fun _ => rfl, ?_, ?_⟩
        · intro hp _ he
          exact absurd ⟨hp, he⟩ h1
        · intro hp _ he
          exact absurd ⟨hp, he⟩ h2
  · rw [if_neg hsel]
    refine ⟨Or.inl rfl, fun _ => rfl, ?_, ?_⟩
    · intro hp hm _
      exfalso
      apply hsel
      unfold refreshSelects
      rw [Bool.and_eq_true]
      refine ⟨by rw [hp]; rfl, hm⟩
    · intro hp hm _
      exfalso
      apply hsel
      unfold refreshSelects
      rw [Bool.and_eq_true]
      refine ⟨by rw [hp]; rfl, hm⟩

/-- Each row either advances (counter 1, row changed) or is untouched
(counter 0). -/
theorem refreshStep_changed (order_id : Option Nat) (now : Nat) (a : OrderItem) :
    ((refreshStep order_id now a).2 = 1 ∧ (refreshStep order_id now a).1 ≠ a) ∨
    ((refreshStep order_id now a).2 = 0 ∧ (refreshStep order_id now a).1 = a) := by
  unfold refreshStep
  split
  · dsimp only
    split
    · left
      refine ⟨rfl, ?_⟩
      intro heq
      rename_i hcond
      have hstat := congrArg (fun x => x.order_status) heq
      dsimp only at hstat
      rw [hcond.1] at hstat
      exact absurd hstat (by decide)
    · split
      · left
        refine ⟨rfl, ?_⟩
        intro heq
        rename_i hcond
        have hstat := congrArg (fun x => x.order_status) heq
        dsimp only at hstat
        rw [hcond.1] at hstat
        exact absurd hstat (by decide)
      · right
        exact ⟨rfl, rfl⟩
  · right
    exact ⟨rfl, rfl⟩

/-- The daemon's return value counts exactly the changed rows. -/
theorem refreshStep_count (order_id : Option Nat) (now : Nat)
    (l : List OrderItem) :
    (l.map (fun it => (refreshStep order_id now it).2)).sum =
      ((l.zip (l.map (fun it => (refreshStep order_id now it).1))).filter
        (fun p => p.1 != p.2)).length := by
  induction l with
  | nil => rfl
  | cons a l ih =>
    simp only [List.map_cons, List.sum_cons, List.zip_cons_cons, List.filter]
    rcases refreshStep_changed order_id now a with ⟨h2, h1⟩ | ⟨h2, h1⟩
    · have hne : (a != (refreshStep order_id now a).1) = true :=
        bne_iff_ne.mpr (fun h => h1 h.symm)
      rw [h2, hne, ih]
      simp [Nat.add_comm, List.zip]
    · have heq : (a != (refreshStep order_id now a).1) = false := by
        rw [bne_eq_false_iff_eq]
        exact h1.symm
      rw [h2, heq, ih]
      simp [List.zip]

/-- **C5**: one invocation of `refresh_order_statuses` relates every stored
item to its successor by `refreshItemSpec` — at most one forward step
(`pending→preparing`, `preparing→served`), each only when at least one
minute elapsed since the last update (or creation), stamping the update
time, every other status untouched and nothing moved backward — and returns
exactly the number of rows it advanced. -/
theorem C5_refresh_single_step (db : DB) (order_id : Option Nat) (now : Nat) :
    List.Forall₂ (refreshItemSpec order_id now) db.items
      (refresh_order_statuses db order_id now).1.items ∧
    (refresh_order_statuses db order_id now).2 =
      ((db.items.zip (refresh_order_statuses db order_id now).1.items).filter
        (fun p => p.1 != p.2)).length := by
  constructor
  · show List.Forall₂ (refreshItemSpec order_id now) db.items
      (db.items.map (fun it => (refreshStep order_id now it).1))
    rw [List.forall₂_map_right_iff]
    rw [List.forall₂_same]
    exact fun x _ => refreshStep_spec order_id now x
  · exact refreshStep_count order_id now db.items

/-! ## Claim C4 -/

/-- **C4** (idempotent cancellation): on an existing pending item, the first
`cancel_order_item` restores the quantity to the offering's stock and sets the
status to `cancelled`; the second call on the same id changes no state and
returns the explanatory already-cancelled message (not an error); stock is
restored exactly once across both calls. -/
theorem C4_cancel_idempotent (db : DB) (iid : Nat) (now1 now2 : Nat)
    (it : OrderItem) (off : Offering)
    (hf : findItem db iid = some it) (hs : it.order_status = .pending)
    (ho : findOfferingById db it.offering_id = some off) :
    (cancel_order_item db iid now1).2 = .ok (cancelSuccessMsg iid) ∧
    stockOf (cancel_order_item db iid now1).1 it.offering_id =
      stockOf db it.offering_id + it.quantity ∧
    (findItem (cancel_order_item db iid now1).1 iid).map
      (fun x => x.order_status) = some .cancelled ∧
    (cancel_order_item (cancel_order_item db iid now1).1 iid now2).1 =
      (cancel_order_item db iid now1).1 ∧
    (cancel_order_item (cancel_order_item db iid now1).1 iid now2).2 =
      .ok (cannotCancelMsg .cancelled) ∧
    stockOf (cancel_order_item (cancel_order_item db iid now1).1 iid now2).1
      it.offering_id = stockOf db it.offering_id + it.quantity := by
  obtain ⟨hoff, hitems, _, _, _, hmsg⟩ := cancel_success db iid now1 it off hf hs ho
  have hoffid : off.offering_id = it.offering_id := by
    have h2 := List.find?_some ho
    exact eq_of_beq h2
  have hstock1 : stockOf (cancel_order_item db iid now1).1 it.offering_id =
      stockOf db it.offering_id + it.quantity := by
    have := stockOf_map
      (fun o => if o.offering_id == it.offering_id then
        { o with quantity := o.quantity + it.quantity } else o)
      (fun o => by by_cases h : o.offering_id == it.offering_id <;> simp [h])
      hoff it.offering_id
    rw [this, ho]
    unfold stockOf
    rw [ho]
    show (if (off.offering_id == it.offering_id) = true then
      { off with quantity := off.quantity + it.quantity } else off).quantity = _
    rw [if_pos (by rw [hoffid]; exact beq_self_eq_true _)]
    rfl
  have hitid : it.order_item_id = iid := by
    have h2 := List.find?_some hf
    exact eq_of_beq h2
  have hfind1 : findItem (cancel_order_item db iid now1).1 iid =
      some { it with order_status := .cancelled, sys_update_date := some now1 } := by
    unfold findItem
    rw [hitems]
    rw [find?_map_comm _ (fun x => x.order_item_id == iid)
      (fun x => by by_cases h : x.order_item_id == it.order_item_id <;> simp [h])
      db.items]
    rw [show db.items.find? (fun x => x.order_item_id == iid) = some it from hf]
    show some (if (it.order_item_id == it.order_item_id) = true then _ else it) = _
    rw [if_pos (beq_self_eq_true _)]
  have hcancel2 := cancel_notPending (cancel_order_item db iid now1).1 iid now2
    { it with order_status := .cancelled, sys_update_date := some now1 }
    hfind1 (by intro h; cases h)
  refine ⟨hmsg, hstock1, ?_, ?_, ?_, ?_⟩
  · rw [hfind1]
    rfl
  · rw [hcancel2]
  · rw [hcancel2]
  · rw [hcancel2]
    exact hstock1

/-- Concrete state for the idempotent-cancellation witness. -/
def C4db : DB :=
  ⟨[⟨1, "Margherita", 900, 2, []⟩],
   [⟨1, 1, 1, 3, none, .pending, some 0, some 0⟩], [], [], 2⟩

/-- Witness: cancelling item 1 twice on `C4db` restores the 3 units once and
the second call reports the cancelled status. -/
theorem C4_cancel_idempotent_witness :
    (cancel_order_item C4db 1 10).2 = .ok (cancelSuccessMsg 1) ∧
    stockOf (cancel_order_item C4db 1 10).1 1 = stockOf C4db 1 + 3 ∧
    (findItem (cancel_order_item C4db 1 10).1 1).map
      (fun x => x.order_status) = some .cancelled ∧
    (cancel_order_item (cancel_order_item C4db 1 10).1 1 20).1 =
      (cancel_order_item C4db 1 10).1 ∧
    (cancel_order_item (cancel_order_item C4db 1 10).1 1 20).2 =
      .ok (cannotCancelMsg .cancelled) ∧
    stockOf (cancel_order_item (cancel_order_item C4db 1 10).1 1 20).1 1 =
      stockOf C4db 1 + 3 :=
  C4_cancel_idempotent C4db 1 10 20
    ⟨1, 1, 1, 3, none, .pending, some 0, some 0⟩ ⟨1, "Margherita", 900, 2, []⟩
    rfl rfl rfl

/-! ## Claim C7 -/

/-- **C7**: when the offering's stock is below the requested quantity,
`placeOrder` is a perfect no-op returning a message (not an exception) whose
text contains the requested amount and the current remaining stock; no
OrderItem row is created, no modification inserted, the whole state is
untouched.  Otherwise it creates the item with status `pending` and, on
well-formed states, decrements the offering's stock by exactly the
quantity. -/
theorem C7_insufficient_stock_noop
    (infer : Offering → Option String → List String) (db : DB)
    (order_id : Nat) (item_name : String) (q : Int) (si : Option String)
    (excl : List String) (now : Nat) (off : Offering)
    (hf : findOfferingByName db item_name = some off) :
    (off.quantity < q →
      placeOrder infer db order_id item_name q si excl now =
        (db, .ok (insufficientStockMsg q off)) ∧
      (∃ s t, s ++ (toString q).data ++ t = (insufficientStockMsg q off).data) ∧
      (∃ s t, s ++ (toString off.quantity).data ++ t =
        (insufficientStockMsg q off).data)) ∧
    (¬ off.quantity < q →
      (placeOrder infer db order_id item_name q si excl now).1.items =
        db.items ++ [⟨db.next_item_id, order_id, off.offering_id, q, si,
          .pending, some now, some now⟩] ∧
      ((db.offerings.map (fun o => o.offering_id)).Nodup →
        stockOf (placeOrder infer db order_id item_name q si excl now).1
          off.offering_id = off.quantity - q)) := by
  constructor
  · intro hq
    refine ⟨placeOrder_insufficient infer db order_id item_name q si excl now
      off hf hq, ?_, ?_⟩
    · refine ⟨("Order cannot be placed as you requested ").data,
        (" " ++ off.name ++ " but only " ++ toString off.quantity ++
          " in stock").data, ?_⟩
      simp [insufficientStockMsg, String.data_append]
    · refine ⟨("Order cannot be placed as you requested " ++ toString q ++
        " " ++ off.name ++ " but only ").data, (" in stock").data, ?_⟩
      simp [insufficientStockMsg, String.data_append]
  · intro hq
    obtain ⟨hoff, hitems, _, _, _, _⟩ :=
      placeOrder_success infer db order_id item_name q si excl now off hf hq
    refine ⟨hitems, ?_⟩
    intro hnodup
    have hstock := stockOf_map
      (fun o => if o.offering_id == off.offering_id then
        { o with quantity := o.quantity - q } else o)
      (fun o => by by_cases h : o.offering_id == off.offering_id <;> simp [h])
      hoff off.offering_id
    have hmem : off ∈ db.offerings := List.mem_of_find?_eq_some hf
    have hbyid : findOfferingById db off.offering_id = some off := by
      unfold findOfferingById
      exact find?_key_of_mem (fun o => o.offering_id) hnodup hmem
    rw [hstock, hbyid]
    show (if (off.offering_id == off.offering_id) = true then
      { off with quantity := off.quantity - q } else off).quantity = _
    rw [if_pos (beq_self_eq_true _)]

/-- Concrete state for the insufficient-stock witness: stock 2. -/
def C7db : DB :=
  ⟨[⟨1, "Margherita", 900, 2, []⟩], [], [], [], 1⟩

/-- Witness: requesting 10 of a stock-2 offering returns the message and
leaves the state unchanged; requesting 2 creates the pending row. -/
theorem C7_insufficient_stock_noop_witness :
    ((⟨1, "Margherita", 900, 2, []⟩ : Offering).quantity < 10 →
      placeOrder (fun _ _ => []) C7db 1 "Margherita" 10 none [] 0 =
        (C7db, .ok (insufficientStockMsg 10 ⟨1, "Margherita", 900, 2, []⟩)) ∧
      (∃ s t, s ++ (toString (10 : Int)).data ++ t =
        (insufficientStockMsg 10 ⟨1, "Margherita", 900, 2, []⟩).data) ∧
      (∃ s t, s ++ (toString (⟨1, "Margherita", 900, 2, []⟩ : Offering).quantity).data ++ t =
        (insufficientStockMsg 10 ⟨1, "Margherita", 900, 2, []⟩).data)) ∧
    (¬ (⟨1, "Margherita", 900, 2, []⟩ : Offering).quantity < 10 →
      (placeOrder (fun _ _ => []) C7db 1 "Margherita" 10 none [] 0).1.items =
        C7db.items ++ [⟨C7db.next_item_id, 1, 1, 10, none, .pending,
          some 0, some 0⟩] ∧
      ((C7db.offerings.map (fun o => o.offering_id)).Nodup →
        stockOf (placeOrder (fun _ _ => []) C7db 1 "Margherita" 10 none [] 0).1 1 =
          (⟨1, "Margherita", 900, 2, []⟩ : Offering).quantity - 10)) :=
  C7_insufficient_stock_noop (fun _ _ => []) C7db 1 "Margherita" 10 none [] 0
    ⟨1, "Margherita", 900, 2, []⟩ (by simp [findOfferingByName, C7db, List.find?])

/-! ## Claim C8 -/

/-- Served item over a well-stocked, uniquely named offering: the intended
append-a-fresh-row scenario of the specification's Scenario E. -/
def C8db3 : DB :=
  ⟨[⟨1, "Pizza", 900, 10, []⟩],
   [⟨1, 7, 1, 1, none, .served, some 0, some 0⟩], [], [], 2⟩

/-- **C8** (code bug, evaluated at the failing input).  The non-pending
branch of `update_order_item_quantity` detaches the row with
`session.expunge` (queries.py:479) and only afterwards lazy-loads
`order_item.offering` (queries.py:485) — a relationship never loaded while
the row was attached — so SQLAlchemy raises `DetachedInstanceError`, the
transaction rolls back, and the delegation to `placeOrder` is never
reached.  On `C8db3` (item 1 `served`, stock 10, `new_quantity = 2 ≥ 1`,
where the claim — and the function's own docstring, queries.py:433 — says a
fresh pending OrderItem is created for the same order and offering) the
call raises, creates nothing, and leaves the whole state unchanged. -/
theorem C8_nonpending_update_raises :
    (findItem C8db3 1).map (fun it => it.order_status) = some .served ∧
    update_order_item_quantity (fun _ _ => []) C8db3 1 2 0 =
      (C8db3, .error "DetachedInstanceError") ∧
    (update_order_item_quantity (fun _ _ => []) C8db3 1 2 0).1.items.length = 1 :=
  ⟨rfl, rfl, rfl⟩

/-! ## Claim C9 -/

/-- **C9 counterexample.**  On an absent FAQ key the data-access function
returns Python `None` — nothing is raised — and the dispatch layer turns it
into the plain string `"None"` via `str(result)`: a success-shaped value,
not an error string, contradicting the claimed hard NotFound failure. -/
theorem C9_counterexample :
    get_value_for_key ⟨[], [], [], [], 0⟩ "opening_hours" = none ∧
    execute_get_faq_value ⟨[], [], [], [], 0⟩ "opening_hours" = "None" :=
  ⟨rfl, rfl⟩

/-- **C9 (amended)**: for every FAQ key absent from the store,
`get_value_for_key` returns `None` without raising, and the Tool Dispatch
Layer's `str(result)` renders the tool output as the literal string
`"None"` — a non-error success value; no exception is raised or caught on
this path. -/
theorem C9_faq_missing_returns_none (db : DB) (key : String)
    (habs : ∀ f ∈ db.faqs, f.key ≠ key) :
    get_value_for_key db key = none ∧
    execute_get_faq_value db key = "None" := by
  have hfind : db.faqs.find? (fun f => f.key == key) = none := by
    rw [List.find?_eq_none]
    intro f hf
    simp [habs f hf]
  constructor
  · unfold get_value_for_key
    rw [hfind]
    rfl
  · unfold execute_get_faq_value get_value_for_key
    rw [hfind]
    rfl

/-- Witness: a non-empty FAQ store without the requested key. -/
theorem C9_faq_missing_returns_none_witness :
    get_value_for_key ⟨[], [], [], [⟨"hours", "9am to 5pm"⟩], 0⟩ "wifi" = none ∧
    execute_get_faq_value ⟨[], [], [], [⟨"hours", "9am to 5pm"⟩], 0⟩ "wifi" =
      "None" :=
  C9_faq_missing_returns_none ⟨[], [], [], [⟨"hours", "9am to 5pm"⟩], 0⟩ "wifi"
    (by decide)

/-! ## Claim C10 -/

/-- **C10**: `placeOrder` enforces no lower bound on the quantity.  With
non-negative stock, quantity 0 passes the stock check, creates an OrderItem
with quantity 0 and leaves the stock literally unchanged; every negative
quantity `q` also succeeds and *increases* the stock by `|q|`; and only the
dispatch wrapper supplies the default quantity 1 when the field is
omitted. -/
theorem C10_no_quantity_lower_bound
    (infer : Offering → Option String → List String) (db : DB)
    (order_id : Nat) (item_name : String) (si : Option String)
    (excl : List String) (now : Nat) (off : Offering)
    (hf : findOfferingByName db item_name = some off)
    (hstock : 0 ≤ off.quantity) :
    ((placeOrder infer db order_id item_name 0 si excl now).1.items =
        db.items ++ [⟨db.next_item_id, order_id, off.offering_id, 0, si,
          .pending, some now, some now⟩] ∧
      (∃ msg, (placeOrder infer db order_id item_name 0 si excl now).2 = .ok msg) ∧
      (placeOrder infer db order_id item_name 0 si excl now).1.offerings =
        db.offerings) ∧
    (∀ q : Int, q < 0 →
      (placeOrder infer db order_id item_name q si excl now).1.items =
        db.items ++ [⟨db.next_item_id, order_id, off.offering_id, q, si,
          .pending, some now, some now⟩] ∧
      (∃ msg, (placeOrder infer db order_id item_name q si excl now).2 = .ok msg) ∧
      ((db.offerings.map (fun o => o.offering_id)).Nodup →
        stockOf (placeOrder infer db order_id item_name q si excl now).1
          off.offering_id = off.quantity + |q|)) ∧
    (∀ p : PlaceOrderParams, p.quantity = none →
      wrap_place_order infer db p now =
        placeOrder infer db p.order_id p.item_name 1 p.special_instructions
          (p.ingredients_to_exclude.getD []) now) := by
  refine ⟨?_, ?_, ?_⟩
  · have hq : ¬ off.quantity < 0 := not_lt.mpr hstock
    obtain ⟨hoff, hitems, _, _, _, hmsg⟩ :=
      placeOrder_success infer db order_id item_name 0 si excl now off hf hq
    refine ⟨hitems, hmsg, ?_⟩
    rw [hoff]
    have hid : db.offerings.map (fun o =>
        if o.offering_id == off.offering_id then
          { o with quantity := o.quantity - 0 } else o) =
        db.offerings.map id :=
      List.map_congr_left (fun o _ => by
        by_cases h : (o.offering_id == off.offering_id) = true <;> simp [h])
    rw [hid, List.map_id]
  · intro q hq0
    have hq : ¬ off.quantity < q := not_lt.mpr (le_of_lt (lt_of_lt_of_le hq0 hstock))
    obtain ⟨hoff, hitems, _, _, _, hmsg⟩ :=
      placeOrder_success infer db order_id item_name q si excl now off hf hq
    refine ⟨hitems, hmsg, ?_⟩
    intro hnodup
    have hstockmap := stockOf_map
      (fun o => if o.offering_id == off.offering_id then
        { o with quantity := o.quantity - q } else o)
      (fun o => by by_cases h : o.offering_id == off.offering_id <;> simp [h])
      hoff off.offering_id
    have hmem : off ∈ db.offerings := List.mem_of_find?_eq_some hf
    have hbyid : findOfferingById db off.offering_id = some off := by
      unfold findOfferingById
      exact find?_key_of_mem (fun o => o.offering_id) hnodup hmem
    rw [hstockmap, hbyid]
    show (if (off.offering_id == off.offering_id) = true then
      { off with quantity := off.quantity - q } else off).quantity = _
    rw [if_pos (beq_self_eq_true _)]
    show off.quantity - q = off.quantity + |q|
    rw [abs_of_neg hq0]
    ring
  · intro p hp
    unfold wrap_place_order
    rw [hp]
    rfl

/-- Witness: the wrapper's omitted `quantity` defaults to 1 over `C7db`. -/
theorem C10_no_quantity_lower_bound_witness :
    wrap_place_order (fun _ _ => []) C7db ⟨1, "Margherita", none, none, none⟩ 0 =
      placeOrder (fun _ _ => []) C7db 1 "Margherita" 1 none [] 0 :=
  (C10_no_quantity_lower_bound (fun _ _ => []) C7db 1 "Margherita" none [] 0
    ⟨1, "Margherita", 900, 2, []⟩ rfl (by decide)).2.2
    ⟨1, "Margherita", none, none, none⟩ rfl

/-! ## Claim C3 -/

/-- The statuses claim C3 says `receipt` excludes: both cancelled variants
always; both paid variants when `include_paid` is false; only
`paid-completed` when it is true. -/
def receiptClaimExcluded (include_paid : Bool) (s : OrderStatus) : Prop :=
  s = .cancelled ∨ s = .cancelledCompleted ∨
    (if include_paid then s = .paidCompleted
     else s = .paid ∨ s = .paidCompleted)

/-- The source WHERE clause coincides with the claim's exclusion sets plus the
order and optional name filters. -/
theorem receiptSelects_iff (db : DB) (oid : Nat) (names : List String)
    (ip : Bool) (it : OrderItem) :
    receiptSelects db oid names ip it = true ↔
      (it.order_id = oid ∧ ¬ receiptClaimExcluded ip it.order_status ∧
        (names = [] ∨ ∃ off, findOfferingById db it.offering_id = some off ∧
          off.name ∈ names)) := by
  cases hfind : findOfferingById db it.offering_id with
  | none =>
    simp only [receiptSelects, hfind, receiptClaimExcluded, Bool.and_eq_true,
      beq_iff_eq, Bool.or_eq_true, Bool.not_eq_true', List.isEmpty_iff]
    cases ip <;> simp <;> tauto
  | some off0 =>
    simp only [receiptSelects, hfind, receiptClaimExcluded, Bool.and_eq_true,
      beq_iff_eq, Bool.or_eq_true, Bool.not_eq_true', List.isEmpty_iff,
      List.elem_iff]
    cases ip <;> simp <;> tauto

/-- Receipt state for the price-times-quantity distinction: one pending item
of quantity 2 over a price-7 offering. -/
def C3db : DB :=
  ⟨[⟨1, "Espresso", 7, 5, []⟩],
   [⟨1, 1, 1, 2, none, .pending, some 0, some 0⟩], [], [], 2⟩

/-- **C3**: `receipt` selects (over the state its internal refresh produced)
exactly the order's items minus the claim's exclusion sets — both cancelled
variants always, both paid variants unless `include_paid`, only
`paid-completed` otherwise — with the optional name filter; its total is the
sum of the unit prices of the returned rows, which in general differs from
the sum of price times quantity. -/
theorem C3_receipt_selection_and_total (db : DB) (order_id : Nat)
    (item_names : List String) (include_paid include_status : Bool) (now : Nat) :
    (∀ it ∈ (refresh_order_statuses db (some order_id) now).1.items,
      receiptSelects (refresh_order_statuses db (some order_id) now).1 order_id
          item_names include_paid it = true ↔
        (it.order_id = order_id ∧
          ¬ receiptClaimExcluded include_paid it.order_status ∧
          (item_names = [] ∨ ∃ off,
            findOfferingById (refresh_order_statuses db (some order_id) now).1
              it.offering_id = some off ∧ off.name ∈ item_names))) ∧
    (receipt db order_id item_names include_paid include_status now).2.2 =
      (((receipt db order_id item_names include_paid include_status now).2.1).map
        (fun r => r.item_value)).sum ∧
    (∃ db0 oid, (receipt db0 oid [] false false 0).2.2 ≠
      (((receipt db0 oid [] false false 0).2.1).map
        (fun r => r.item_value * r.quantity)).sum) := by
  refine ⟨?_, ?_, ?_⟩
  · intro it _
    exact receiptSelects_iff _ order_id item_names include_paid it
  · unfold receipt
    dsimp only
    rw [List.map_map]
    refine congrArg List.sum ?_
    exact List.map_congr_left (fun it _ => rfl)
  · exact ⟨C3db, 1, by decide⟩

/-- Witness: the receipt total over `C3db` equals the sum of the unit values
of its rows. -/
theorem C3_receipt_selection_and_total_witness :
    (receipt C3db 1 [] false false 0).2.2 =
      (((receipt C3db 1 [] false false 0).2.1).map
        (fun r => r.item_value)).sum :=
  (C3_receipt_selection_and_total C3db 1 [] false false 0).2.1

/-! ## Claim C6 -/

/-- The cleaned form of a requested name: `None` when stripping empties it. -/
def cleanedOf (name : String) : Option String :=
  if pyStrip name = "" then none else some (pyStrip name)

/-- The requested name lands in `skipped_missing` (carrying its cleaned
spelling) when its normalization is unknown to the offering. -/
def missingName (assocs : List OfferingIngredient) (name : String) :
    Option String :=
  match cleanedOf name with
  | none => none
  | some c =>
    if normalize_ingredient_name c = "" then none
    else
      match ingredientLookup assocs (normalize_ingredient_name c) with
      | none => some c
      | some _ => none

/-- The requested name lands in `skipped_locked` (carrying the canonical
ingredient name) when it resolves to a non-removable association. -/
def lockedName (assocs : List OfferingIngredient) (name : String) :
    Option String :=
  match cleanedOf name with
  | none => none
  | some c =>
    if normalize_ingredient_name c = "" then none
    else
      match ingredientLookup assocs (normalize_ingredient_name c) with
      | none => none
      | some a => if !a.is_removable then some a.ingredient.name else none

/-- The association a requested name resolves to when it is removable. -/
def removableAssocOf (assocs : List OfferingIngredient) (name : String) :
    Option OfferingIngredient :=
  match cleanedOf name with
  | none => none
  | some c =>
    if normalize_ingredient_name c = "" then none
    else
      match ingredientLookup assocs (normalize_ingredient_name c) with
      | none => none
      | some a => if !a.is_removable then none else some a

/-- First-occurrence deduplication by `ingredient_id`, seeded with an
already-seen id set — the `seen_ingredient_ids` behaviour of the source. -/
def dedupByIngredientId :
    List OfferingIngredient → List Nat → List OfferingIngredient
  | [], _ => []
  | a :: rest, seen =>
    if a.ingredient_id ∈ seen then dedupByIngredientId rest seen
    else a :: dedupByIngredientId rest (a.ingredient_id :: seen)

/-- The classifier loop, for any `seen` seed, returns exactly the deduplicated
removable resolutions and the per-name missing/locked classifications. -/
theorem classifyAux_eq (assocs : List OfferingIngredient) :
    ∀ (names : List String) (seen : List Nat),
      classifyAux assocs names seen =
        (dedupByIngredientId (names.filterMap (removableAssocOf assocs)) seen,
         names.filterMap (missingName assocs),
         names.filterMap (lockedName assocs)) := by
  intro names
  induction names with
  | nil => intro seen; rfl
  | cons name rest ih =>
    intro seen
    by_cases hc : pyStrip name = ""
    · rw [List.filterMap_cons_none
          (show missingName assocs name = none by
            simp [missingName, cleanedOf, hc]),
        List.filterMap_cons_none
          (show lockedName assocs name = none by
            simp [lockedName, cleanedOf, hc]),
        List.filterMap_cons_none
          (show removableAssocOf assocs name = none by
            simp [removableAssocOf, cleanedOf, hc])]
      have e1 : classifyAux assocs (name :: rest) seen =
          classifyAux assocs rest seen := by
        simp [classifyAux, hc]
      rw [e1]
      exact ih seen
    · by_cases hn : normalize_ingredient_name (pyStrip name) = ""
      · rw [List.filterMap_cons_none
            (show missingName assocs name = none by
              simp [missingName, cleanedOf, hc, hn]),
          List.filterMap_cons_none
            (show lockedName assocs name = none by
              simp [lockedName, cleanedOf, hc, hn]),
          List.filterMap_cons_none
            (show removableAssocOf assocs name = none by
              simp [removableAssocOf, cleanedOf, hc, hn])]
        have e1 : classifyAux assocs (name :: rest) seen =
            classifyAux assocs rest seen := by
          simp [classifyAux, hc, hn]
        rw [e1]
        exact ih seen
      · cases hlook : ingredientLookup assocs
            (normalize_ingredient_name (pyStrip name)) with
        | none =>
          rw [List.filterMap_cons_some
              (show missingName assocs name = some (pyStrip name) by
                simp [missingName, cleanedOf, hc, hn, hlook]),
            List.filterMap_cons_none
              (show lockedName assocs name = none by
                simp [lockedName, cleanedOf, hc, hn, hlook]),
            List.filterMap_cons_none
              (show removableAssocOf assocs name = none by
                simp [removableAssocOf, cleanedOf, hc, hn, hlook])]
          have e1 : classifyAux assocs (name :: rest) seen =
              ((classifyAux assocs rest seen).1,
                pyStrip name :: (classifyAux assocs rest seen).2.1,
                (classifyAux assocs rest seen).2.2) := by
            simp [classifyAux, hc, hn, hlook]
          rw [e1, ih seen]
        | some a =>
          by_cases hrem : a.is_removable = true
          · rw [List.filterMap_cons_none
                (show missingName assocs name = none by
                  simp [missingName, cleanedOf, hc, hn, hlook]),
              List.filterMap_cons_none
                (show lockedName assocs name = none by
                  simp [lockedName, cleanedOf, hc, hn, hlook, hrem]),
              List.filterMap_cons_some
                (show removableAssocOf assocs name = some a by
                  simp [removableAssocOf, cleanedOf, hc, hn, hlook, hrem])]
            by_cases hseen : a.ingredient_id ∈ seen
            · have e1 : classifyAux assocs (name :: rest) seen =
                  classifyAux assocs rest seen := by
                simp [classifyAux, hc, hn, hlook, hrem, hseen]
              have e2 : dedupByIngredientId
                  (a :: rest.filterMap (removableAssocOf assocs)) seen =
                  dedupByIngredientId
                    (rest.filterMap (removableAssocOf assocs)) seen := by
                simp [dedupByIngredientId, hseen]
              rw [e1, e2]
              exact ih seen
            · have e1 : classifyAux assocs (name :: rest) seen =
                  (a :: (classifyAux assocs rest (a.ingredient_id :: seen)).1,
                    (classifyAux assocs rest (a.ingredient_id :: seen)).2.1,
                    (classifyAux assocs rest (a.ingredient_id :: seen)).2.2) := by
                simp [classifyAux, hc, hn, hlook, hrem, hseen]
              have e2 : dedupByIngredientId
                  (a :: rest.filterMap (removableAssocOf assocs)) seen =
                  a :: dedupByIngredientId
                    (rest.filterMap (removableAssocOf assocs))
                    (a.ingredient_id :: seen) := by
                simp [dedupByIngredientId, hseen]
              rw [e1, e2, ih (a.ingredient_id :: seen)]
          · rw [List.filterMap_cons_none
                (show missingName assocs name = none by
                  simp [missingName, cleanedOf, hc, hn, hlook]),
              List.filterMap_cons_some
                (show lockedName assocs name = some a.ingredient.name by
                  simp [lockedName, cleanedOf, hc, hn, hlook, hrem]),
              List.filterMap_cons_none
                (show removableAssocOf assocs name = none by
                  simp [removableAssocOf, cleanedOf, hc, hn, hlook, hrem])]
            have e1 : classifyAux assocs (name :: rest) seen =
                ((classifyAux assocs rest seen).1,
                  (classifyAux assocs rest seen).2.1,
                  a.ingredient.name :: (classifyAux assocs rest seen).2.2) := by
              simp [classifyAux, hc, hn, hlook, hrem]
            rw [e1, ih seen]

/-- Members of the deduplicated list come from the input list. -/
theorem mem_dedupByIngredientId :
    ∀ {l : List OfferingIngredient} {seen : List Nat} {a : OfferingIngredient},
      a ∈ dedupByIngredientId l seen → a ∈ l := by
  intro l
  induction l with
  | nil => intro seen a h; cases h
  | cons b l ih =>
    intro seen a h
    unfold dedupByIngredientId at h
    by_cases hseen : b.ingredient_id ∈ seen
    · rw [if_pos hseen] at h
      exact List.mem_cons_of_mem b (ih h)
    · rw [if_neg hseen] at h
      rcases List.mem_cons.mp h with rfl | h'
      · exact List.mem_cons_self _ _
      · exact List.mem_cons_of_mem b (ih h')

/-- The deduplicated list has pairwise distinct ingredient ids, none of them
in the seed. -/
theorem dedupByIngredientId_nodup :
    ∀ (l : List OfferingIngredient) (seen : List Nat),
      ((dedupByIngredientId l seen).map (fun a => a.ingredient_id)).Nodup ∧
      ∀ a ∈ dedupByIngredientId l seen, a.ingredient_id ∉ seen := by
  intro l
  induction l with
  | nil => exact fun seen => ⟨List.nodup_nil, fun a h => absurd h (List.not_mem_nil a)⟩
  | cons b l ih =>
    intro seen
    unfold dedupByIngredientId
    by_cases hseen : b.ingredient_id ∈ seen
    · rw [if_pos hseen]
      exact ih seen
    · rw [if_neg hseen]
      obtain ⟨ihn, ihs⟩ := ih (b.ingredient_id :: seen)
      refine ⟨?_, ?_⟩
      · rw [List.map_cons, List.nodup_cons]
        refine ⟨?_, ihn⟩
        intro hmem
        obtain ⟨a, ha, hk⟩ := List.mem_map.mp hmem
        exact ihs a ha (hk ▸ List.mem_cons_self _ _)
      · intro a ha
        rcases List.mem_cons.mp ha with rfl | ha'
        · exact hseen
        · exact fun hmem => ihs a ha' (List.mem_cons_of_mem _ hmem)

/-- `collapseLower` of a non-empty list is non-empty. -/
theorem collapseLower_ne_nil (l : List Char) (h : l ≠ []) :
    collapseLower l false ≠ [] := by
  cases l with
  | nil => exact absurd rfl h
  | cons c rest =>
    unfold collapseLower
    by_cases hc : isPySpace c = true
    · rw [if_pos hc]
      exact List.cons_ne_nil _ _
    · rw [if_neg hc]
      exact List.cons_ne_nil _ _

/-- `dropWhile` leaves either nothing or a list whose head fails the
predicate. -/
theorem dropWhile_nil_or_head (p : Char → Bool) (l : List Char) :
    l.dropWhile p = [] ∨
      ∃ c rest, l.dropWhile p = c :: rest ∧ p c = false := by
  induction l with
  | nil => exact Or.inl rfl
  | cons c rest ih =>
    by_cases hc : p c = true
    · rw [List.dropWhile_cons_of_pos hc]
      exact ih
    · rw [List.dropWhile_cons_of_neg hc]
      exact Or.inr ⟨c, rest, rfl, Bool.eq_false_iff.mpr hc⟩

/-- Stripping a string whose leading-space drop is non-empty leaves a
non-empty list. -/
theorem stripChars_ne_nil (l : List Char)
    (h : l.dropWhile isPySpace ≠ []) : stripChars l ≠ [] := by
  rcases dropWhile_nil_or_head isPySpace l with hnil | ⟨c, rest, hcr, hpc⟩
  · exact absurd hnil h
  · unfold stripChars
    rw [hcr]
    intro hempty
    have h2 : ((c :: rest).reverse.dropWhile isPySpace) = [] := by
      have := congrArg List.reverse hempty
      rwa [List.reverse_reverse] at this
    rw [List.dropWhile_eq_nil_iff] at h2
    have hc : c ∈ (c :: rest).reverse := by
      rw [List.mem_reverse]
      exact List.mem_cons_self _ _
    rw [h2 c hc] at hpc
    cases hpc

/-- A stripped non-empty name still strips to something non-empty. -/
theorem stripChars_stripChars_ne_nil (l : List Char)
    (h : stripChars l ≠ []) : stripChars (stripChars l) ≠ [] := by
  apply stripChars_ne_nil
  intro hnil
  rw [List.dropWhile_eq_nil_iff] at hnil
  unfold stripChars at h
  rcases dropWhile_nil_or_head isPySpace ((l.dropWhile isPySpace).reverse)
    with hnil2 | ⟨c, rest, hcr, hpc⟩
  · exact h (by rw [hnil2]; rfl)
  · have hcmem : c ∈ stripChars l := by
      unfold stripChars
      rw [hcr, List.mem_reverse]
      exact List.mem_cons_self _ _
    rw [hnil c hcmem] at hpc
    cases hpc

/-- Normalizing a non-empty cleaned name never yields the empty string: the
`if not normalized` guard of the source is dead code. -/
theorem normalize_of_cleaned_ne_empty {name : String}
    (h : pyStrip name ≠ "") :
    normalize_ingredient_name (pyStrip name) ≠ "" := by
  have hdata : (pyStrip name).data = stripChars name.data := rfl
  have hne : stripChars name.data ≠ [] := by
    intro hnil
    apply h
    show String.mk (stripChars name.data) = ""
    rw [hnil]
  have h2 := stripChars_stripChars_ne_nil name.data hne
  intro hempty
  apply collapseLower_ne_nil (stripChars (pyStrip name).data)
    (by rw [hdata]; exact h2)
  have := congrArg String.data hempty
  exact this

/-- A successful lookup returns an association whose own canonical name maps
back to it. -/
theorem ingredientLookup_self {assocs : List OfferingIngredient} {k : String}
    {a : OfferingIngredient} (h : ingredientLookup assocs k = some a) :
    normalize_ingredient_name a.ingredient.name = k ∧
    ingredientLookup assocs (normalize_ingredient_name a.ingredient.name) =
      some a := by
  have hp := List.find?_some h
  have heq : normalize_ingredient_name a.ingredient.name = k := eq_of_beq hp
  exact ⟨heq, by rw [heq]; exact h⟩

/-- A name classified as missing has no association under its normalization. -/
theorem missingName_lookup {assocs : List OfferingIngredient} {n s : String}
    (h : missingName assocs n = some s) :
    ingredientLookup assocs (normalize_ingredient_name s) = none := by
  unfold missingName at h
  cases hcl : cleanedOf n with
  | none => rw [hcl] at h; cases h
  | some c =>
    rw [hcl] at h
    dsimp only at h
    by_cases hn : normalize_ingredient_name c = ""
    · rw [if_pos hn] at h; cases h
    · rw [if_neg hn] at h
      cases hlook : ingredientLookup assocs (normalize_ingredient_name c) with
      | none =>
        rw [hlook] at h
        injection h with h'
        rw [← h']
        exact hlook
      | some a => rw [hlook] at h; cases h

/-- A name classified as locked resolves (under its own normalization) to a
non-removable association. -/
theorem lockedName_lookup {assocs : List OfferingIngredient} {n s : String}
    (h : lockedName assocs n = some s) :
    ∃ a, ingredientLookup assocs (normalize_ingredient_name s) = some a ∧
      a.is_removable = false := by
  unfold lockedName at h
  cases hcl : cleanedOf n with
  | none => rw [hcl] at h; cases h
  | some c =>
    rw [hcl] at h
    dsimp only at h
    by_cases hn : normalize_ingredient_name c = ""
    · rw [if_pos hn] at h; cases h
    · rw [if_neg hn] at h
      cases hlook : ingredientLookup assocs (normalize_ingredient_name c) with
      | none => rw [hlook] at h; cases h
      | some a =>
        rw [hlook] at h
        dsimp only at h
        by_cases hrem : a.is_removable = true
        · rw [if_neg (by simp [hrem])] at h
          cases h
        · rw [if_pos (by simp [Bool.eq_false_iff.mpr hrem])] at h
          injection h with h'
          obtain ⟨_, hself⟩ := ingredientLookup_self hlook
          rw [← h']
          exact ⟨a, hself, Bool.eq_false_iff.mpr hrem⟩

/-- A removable resolution points (under its canonical name's normalization)
back to itself, and is removable. -/
theorem removableAssocOf_lookup {assocs : List OfferingIngredient} {n : String}
    {a : OfferingIngredient} (h : removableAssocOf assocs n = some a) :
    ingredientLookup assocs (normalize_ingredient_name a.ingredient.name) =
      some a ∧ a.is_removable = true := by
  unfold removableAssocOf at h
  cases hcl : cleanedOf n with
  | none => rw [hcl] at h; cases h
  | some c =>
    rw [hcl] at h
    dsimp only at h
    by_cases hn : normalize_ingredient_name c = ""
    · rw [if_pos hn] at h; cases h
    · rw [if_neg hn] at h
      cases hlook : ingredientLookup assocs (normalize_ingredient_name c) with
      | none => rw [hlook] at h; cases h
      | some b =>
        rw [hlook] at h
        dsimp only at h
        by_cases hrem : b.is_removable = true
        · rw [if_neg (by simp [hrem])] at h
          injection h with h'
          subst h'
          obtain ⟨_, hself⟩ := ingredientLookup_self hlook
          exact ⟨hself, hrem⟩
        · rw [if_pos (by simp [Bool.eq_false_iff.mpr hrem])] at h
          cases h

/-- **C6** (exclusion classification is a partition): over any offering and
any requested name list, the classifier's three outputs are exactly the
per-name classifications — `skipped_missing` and `skipped_locked` collect
each request whose normalization is unknown resp. locked, and
`removable_assocs` is the id-deduplicated list of removable resolutions with
pairwise distinct ingredient ids; every requested name that is non-empty
after cleaning falls in exactly one of the three classes; and the three
output lists are pairwise disjoint as ingredient-name sets. -/
theorem C6_classification_partition (offering : Offering)
    (names : List String) :
    (classify_removal_requests offering names).2.1 =
      names.filterMap (missingName offering.ingredients) ∧
    (classify_removal_requests offering names).2.2 =
      names.filterMap (lockedName offering.ingredients) ∧
    (classify_removal_requests offering names).1 =
      dedupByIngredientId
        (names.filterMap (removableAssocOf offering.ingredients)) [] ∧
    ((classify_removal_requests offering names).1.map
      (fun a => a.ingredient_id)).Nodup ∧
    (∀ n ∈ names, pyStrip n ≠ "" →
      (if (missingName offering.ingredients n).isSome then 1 else 0) +
      (if (lockedName offering.ingredients n).isSome then 1 else 0) +
      (if (removableAssocOf offering.ingredients n).isSome then 1 else 0) = 1) ∧
    (∀ s ∈ (classify_removal_requests offering names).2.1,
      s ∉ (classify_removal_requests offering names).2.2 ∧
      s ∉ (classify_removal_requests offering names).1.map
        (fun a => a.ingredient.name)) ∧
    (∀ s ∈ (classify_removal_requests offering names).2.2,
      s ∉ (classify_removal_requests offering names).1.map
        (fun a => a.ingredient.name)) := by
  have hmain := classifyAux_eq offering.ingredients names []
  have hA : (classify_removal_requests offering names).2.1 =
      names.filterMap (missingName offering.ingredients) := by
    unfold classify_removal_requests
    rw [hmain]
  have hB : (classify_removal_requests offering names).2.2 =
      names.filterMap (lockedName offering.ingredients) := by
    unfold classify_removal_requests
    rw [hmain]
  have hC : (classify_removal_requests offering names).1 =
      dedupByIngredientId
        (names.filterMap (removableAssocOf offering.ingredients)) [] := by
    unfold classify_removal_requests
    rw [hmain]
  have hrmem : ∀ a ∈ (classify_removal_requests offering names).1,
      ∃ n ∈ names, removableAssocOf offering.ingredients n = some a := by
    intro a ha
    rw [hC] at ha
    exact List.mem_filterMap.mp (mem_dedupByIngredientId ha)
  refine ⟨hA, hB, hC, ?_, ?_, ?_, ?_⟩
  · rw [hC]
    exact (dedupByIngredientId_nodup _ []).1
  · intro n _ hne
    have hcl : cleanedOf n = some (pyStrip n) := by
      unfold cleanedOf
      rw [if_neg hne]
    have hn := normalize_of_cleaned_ne_empty hne
    cases hlook : ingredientLookup offering.ingredients
        (normalize_ingredient_name (pyStrip n)) with
    | none =>
      simp [missingName, lockedName, removableAssocOf, hcl, hn, hlook]
    | some a =>
      by_cases hrem : a.is_removable = true <;>
        simp [missingName, lockedName, removableAssocOf, hcl, hn, hlook, hrem]
  · intro s hs
    rw [hA] at hs
    obtain ⟨n, _, hmiss⟩ := List.mem_filterMap.mp hs
    have hnone := missingName_lookup hmiss
    constructor
    · intro hsl
      rw [hB] at hsl
      obtain ⟨n', _, hlock⟩ := List.mem_filterMap.mp hsl
      obtain ⟨a, hsome, _⟩ := lockedName_lookup hlock
      rw [hnone] at hsome
      cases hsome
    · intro hsr
      obtain ⟨a, ha, hname⟩ := List.mem_map.mp hsr
      obtain ⟨n', _, hrm⟩ := hrmem a ha
      obtain ⟨hsome, _⟩ := removableAssocOf_lookup hrm
      rw [hname] at hsome
      rw [hnone] at hsome
      cases hsome
  · intro s hs
    rw [hB] at hs
    obtain ⟨n, _, hlock⟩ := List.mem_filterMap.mp hs
    obtain ⟨b, hbsome, hbflag⟩ := lockedName_lookup hlock
    intro hsr
    obtain ⟨a, ha, hname⟩ := List.mem_map.mp hsr
    obtain ⟨n', _, hrm⟩ := hrmem a ha
    obtain ⟨hasome, haflag⟩ := removableAssocOf_lookup hrm
    rw [hname] at hasome
    rw [hbsome] at hasome
    injection hasome with h'
    rw [← h'] at haflag
    rw [hbflag] at haflag
    cases haflag

/-- Witness instance of the partition over the two-ingredient offering of the
repository's own test: Tomato removable, Basil locked. -/
theorem C6_classification_partition_witness :
    (classify_removal_requests
      ⟨1, "Margherita", 900, 5,
        [⟨1, ⟨1, "Tomato"⟩, true⟩, ⟨2, ⟨2, "Basil"⟩, false⟩]⟩
      ["Tomato", "tomatoes", "Basil", "", "Tomato"]).2.1 =
      (["Tomato", "tomatoes", "Basil", "", "Tomato"]).filterMap
        (missingName [⟨1, ⟨1, "Tomato"⟩, true⟩, ⟨2, ⟨2, "Basil"⟩, false⟩]) :=
  (C6_classification_partition
    ⟨1, "Margherita", 900, 5,
      [⟨1, ⟨1, "Tomato"⟩, true⟩, ⟨2, ⟨2, "Basil"⟩, false⟩]⟩
    ["Tomato", "tomatoes", "Basil", "", "Tomato"]).1

end WaiterAI
